import Mathlib

/- Shallow embedding of the TOON codec of src/formats/converters.py
   (dict_to_toon and toon_to_dict, with their helpers _format_value,
   _parse_value and _parse_lines).  Python strings are modelled as
   List Char, Python's insertion-ordered dicts as the Fields structure
   below, and the value types the codec distinguishes as Value. -/

/-- Abbreviation turning a string literal into its character list. -/
def cl (s : String) : List Char := s.data

/-- Python ASCII whitespace, as recognised by str.strip and str.lstrip. -/
def pyIsSpace (c : Char) : Bool :=
  c == ' ' || c == '\t' || c == '\n' || c == '\r' || c == '\x0b' || c == '\x0c'

/-- Python str.lstrip(): drop leading whitespace. -/
def lstripCL (s : List Char) : List Char := s.dropWhile pyIsSpace

/-- Python str.rstrip(): drop trailing whitespace. -/
def rstripCL (s : List Char) : List Char := (s.reverse.dropWhile pyIsSpace).reverse

/-- Python str.strip(): drop leading and trailing whitespace. -/
def stripCL (s : List Char) : List Char := rstripCL (lstripCL s)

/-- Leading-whitespace count of a line: len(line) - len(line.lstrip()). -/
def indentOf (s : List Char) : Nat := s.length - (lstripCL s).length

/-- Python str.lower(), character-wise (ASCII). -/
def lowerCL (s : List Char) : List Char := s.map Char.toLower

/-- Python str.isdigit() for one ASCII decimal digit. -/
def isDigitCh (c : Char) : Bool := '0' ≤ c && c ≤ '9'

/-- Python int() applied to a digit-only token. -/
def natOfDigits (s : List Char) : Nat := s.foldl (fun a c => a * 10 + (c.toNat - 48)) 0

/-- Engine of Python str.split(sep): scan left to right and cut at each
leftmost non-overlapping occurrence of sep.  acc holds the current piece
reversed; skip counts separator characters still to be consumed after a cut. -/
def splitLoop (sep : List Char) : List Char → List Char → Nat → List (List Char)
  | [], acc, _ => [acc.reverse]
  | _ :: rest, acc, skip + 1 => splitLoop sep rest acc skip
  | c :: rest, acc, 0 =>
    if sep.isPrefixOf (c :: rest) then acc.reverse :: splitLoop sep rest [] (sep.length - 1)
    else splitLoop sep rest (c :: acc) 0

/-- Python str.split(sep) for a non-empty separator. -/
def splitOnCL (sep s : List Char) : List (List Char) := splitLoop sep s [] 0

/-- Engine of Python str.split(sep, 1): find the first occurrence of sep. -/
def splitFirstAux (sep : List Char) : List Char → List Char → Option (List Char × List Char)
  | [], _ => none
  | c :: rest, acc =>
    if sep.isPrefixOf (c :: rest) then some (acc.reverse, (c :: rest).drop sep.length)
    else splitFirstAux sep rest (c :: acc)

/-- Python str.split(sep, 1): some (before, after) at the first occurrence of
sep, none when sep does not occur (which is also Python's `sep in s` test). -/
def splitFirstCL (sep s : List Char) : Option (List Char × List Char) := splitFirstAux sep s []

/-- Python sep.join(parts). -/
def joinCL (sep : List Char) : List (List Char) → List Char
  | [] => []
  | [x] => x
  | x :: xs => x ++ sep ++ joinCL sep xs

/-- The TOON record separator: newline, newline, eight dashes, newline, newline. -/
def SEP : List Char := cl "\n\n--------\n\n"

/-- The key/value separator ": " (colon, space). -/
def COLSP : List Char := [':', ' ']

/-- The list-element separator ", " (comma, space). -/
def COMSP : List Char := [',', ' ']

mutual
/-- A Python value as the TOON codec distinguishes them: str, int (produced
by digit-only parses, hence a Nat), bool, list of already-stringified
elements, and dict (a nested object). -/
inductive Value : Type where
  | str  : List Char → Value
  | int  : Nat → Value
  | bool : Bool → Value
  | list : List (List Char) → Value
  | obj  : Fields → Value
  deriving DecidableEq
/-- An insertion-ordered string-keyed mapping, modelling a Python dict. -/
inductive Fields : Type where
  | nil  : Fields
  | cons : List Char → Value → Fields → Fields
  deriving DecidableEq
end

/-- Python dict item assignment result[k] = v: replace in place when the key
exists, else append at the end. -/
def Fields.insert : Fields → List Char → Value → Fields
  | .nil, k, v => .cons k v .nil
  | .cons k0 v0 rest, k, v =>
    if k0 = k then .cons k0 v rest else .cons k0 v0 (rest.insert k v)

/-- Concatenation of two mappings (proof helper). -/
def Fields.append : Fields → Fields → Fields
  | .nil, g => g
  | .cons k v rest, g => .cons k v (rest.append g)

/-- The keys of a mapping, in order. -/
def Fields.keys : Fields → List (List Char)
  | .nil => []
  | .cons k _ rest => k :: rest.keys

/-- Number of fields. -/
def Fields.size : Fields → Nat
  | .nil => 0
  | .cons _ _ rest => 1 + rest.size

/-- Python truthiness of a dict: empty is falsy. -/
def Fields.isEmpty : Fields → Bool
  | .nil => true
  | .cons _ _ _ => false

/-- Decimal digit to its character. -/
def digitCh : Nat → Char
  | 0 => '0' | 1 => '1' | 2 => '2' | 3 => '3' | 4 => '4'
  | 5 => '5' | 6 => '6' | 7 => '7' | 8 => '8' | _ => '9'

/-- Python str() of a non-negative int: its standard decimal representation. -/
def fmtNat (n : Nat) : List Char :=
  if n = 0 then ['0'] else ((Nat.digits 10 n).map digitCh).reverse

/-- The indent prefix "  " * n of dict_to_toon. -/
def spaceCL (n : Nat) : List Char := List.replicate (2 * n) ' '

mutual
/-- Python helper _format_value of dict_to_toon: lists render as bracketed comma-space
joins, bools lowercase, dicts as an indented multi-line block, everything
else by str(). -/
def format_value : Value → Nat → List Char
  | .str s, _ => s
  | .int n, _ => fmtNat n
  | .bool b, _ => if b then cl "true" else cl "false"
  | .list es, _ => '[' :: (joinCL COMSP es ++ [']'])
  | .obj fs, ind => joinCL ['\n'] (objLines fs ind)
/-- The per-field lines of a dict rendered by _format_value: a dict-valued
field takes a header line then its own block, any other field one line. -/
def objLines : Fields → Nat → List (List Char)
  | .nil, _ => []
  | .cons k (.obj g) rest, ind =>
    (spaceCL ind ++ cl "  " ++ k ++ [':']) :: format_value (.obj g) (ind + 1) :: objLines rest ind
  | .cons k v rest, ind =>
    (spaceCL ind ++ cl "  " ++ k ++ COLSP ++ format_value v (ind + 1)) :: objLines rest ind
end

/-- The lines of one record block in dict_to_toon: dict values get a bare
key-colon line followed by their block, other values one key-colon-space line. -/
def recordLines : Fields → List (List Char)
  | .nil => []
  | .cons k (.obj g) rest => (k ++ [':']) :: format_value (.obj g) 0 :: recordLines rest
  | .cons k v rest => (k ++ COLSP ++ format_value v 0) :: recordLines rest

/-- One record block: its lines joined by single newlines. -/
def encodeRecord (r : Fields) : List Char := joinCL ['\n'] (recordLines r)

/-- dict_to_toon: record blocks joined by the record separator. -/
def dict_to_toon (d : List Fields) : List Char := joinCL SEP (d.map encodeRecord)

/-- Python helper _parse_value of toon_to_dict: bracket-wrapped tokens split on ", " into
trimmed non-empty string elements; then case-insensitive booleans; then
digit-only integers; else the token itself as a string. -/
def parse_value (v0 : List Char) : Value :=
  let v := stripCL v0
  if (cl "[").isPrefixOf v && (cl "]").isSuffixOf v then
    Value.list (((splitOnCL COMSP ((v.drop 1).dropLast)).map stripCL).filter
      (fun x => !x.isEmpty))
  else if lowerCL v == cl "true" || lowerCL v == cl "false" then
    Value.bool (lowerCL v == cl "true")
  else if !v.isEmpty && v.all isDigitCh then
    Value.int (natOfDigits v)
  else
    Value.str v

/-- Reference indent of the line at index i, 0 past the end (the conditional
expression at the head of _parse_lines). -/
def refIndent (lines : List (List Char)) (i : Nat) : Nat :=
  if h : i < lines.length then indentOf lines[i] else 0

/-- The while-loop of _parse_lines, with explicit fuel: cur is the block's
reference indent fixed at entry, acc the mapping built so far, i the line
cursor.  Blank lines and lines indented deeper than cur are skipped; a line
shallower than cur ends the block unconsumed; a line with ": " adds a parsed
field; a line ending in ":" starts a recursive nested block at i + 1 whose
reference indent is that of line i + 1; any other line is skipped.  none
only on fuel exhaustion; lines.length + 1 fuel always suffices. -/
def parseLoop : Nat → List (List Char) → Nat → Fields → Nat → Option (Fields × Nat)
  | 0, _, _, _, _ => none
  | fuel + 1, lines, cur, acc, i =>
    if h : i < lines.length then
      let line := lines[i]
      if (stripCL line).isEmpty then parseLoop fuel lines cur acc (i + 1)
      else if indentOf line < cur then some (acc, i)
      else if cur < indentOf line then parseLoop fuel lines cur acc (i + 1)
      else
        match splitFirstCL COLSP (stripCL line) with
        | some (k, v) => parseLoop fuel lines cur (acc.insert k (parse_value v)) (i + 1)
        | none =>
          if (cl ":").isSuffixOf (stripCL line) then
            match parseLoop fuel lines (refIndent lines (i + 1)) .nil (i + 1) with
            | none => none
            | some (nested, nexti) =>
              parseLoop fuel lines cur (acc.insert ((stripCL line).dropLast) (.obj nested)) nexti
          else parseLoop fuel lines cur acc (i + 1)
    else some (acc, i)

/-- Python helper _parse_lines: run the block parser from index i, the reference indent
taken from line i (see refIndent). -/
def parse_lines (lines : List (List Char)) (i : Nat) : Fields × Nat :=
  (parseLoop (lines.length + 1) lines (refIndent lines i) .nil i).getD (.nil, i)

/-- One chunk of toon_to_dict's loop: strip it, split into lines, parse
from index 0. -/
def parseChunk (chunk : List Char) : Fields :=
  (parse_lines (splitOnCL ['\n'] (stripCL chunk)) 0).1

/-- toon_to_dict: strip the text, split on the record separator, parse each
chunk, and keep the non-empty mappings in chunk order. -/
def toon_to_dict (t : List Char) : List Fields :=
  ((splitOnCL SEP (stripCL t)).map parseChunk).filter (fun r => !r.isEmpty)

/-- A field name with no ambiguity hazard: non-empty, not starting with
whitespace, no newline, and not containing the key/value separator ": ". -/
def GoodKeyB (k : List Char) : Bool :=
  !k.isEmpty && !pyIsSpace (k.headD ' ') && !(decide ('\n' ∈ k)) && !(decide (COLSP <:+: k))

/-- A string token with no ambiguity hazard: non-empty, no leading or
trailing whitespace, no newline, not bracket-wrapped, not a casing of
true or false, and not digit-only. -/
def GoodStrB (s : List Char) : Bool :=
  !s.isEmpty && !pyIsSpace (s.headD ' ') && !pyIsSpace (s.getLastD ' ') &&
  !(decide ('\n' ∈ s)) &&
  !((cl "[").isPrefixOf s && (cl "]").isSuffixOf s) &&
  !(lowerCL s == cl "true") && !(lowerCL s == cl "false") &&
  !s.all isDigitCh

/-- A list element with no ambiguity hazard: non-empty, no leading or
trailing whitespace, no newline, and not containing the separator ", ". -/
def GoodElemB (e : List Char) : Bool :=
  !e.isEmpty && !pyIsSpace (e.headD ' ') && !pyIsSpace (e.getLastD ' ') &&
  !(decide ('\n' ∈ e)) && !(decide (COMSP <:+: e))

/-- A scalar field value (String, Integer, Boolean or List) whose rendered
token is unambiguous; Objects are excluded (the flat-record case). -/
def GoodValB : Value → Bool
  | .str s => GoodStrB s
  | .int _ => true
  | .bool _ => true
  | .list es => es.all GoodElemB
  | .obj _ => false

/-- All fields of a record are good and the field names are distinct. -/
def GoodFieldsB : Fields → Bool
  | .nil => true
  | .cons k v rest => GoodKeyB k && GoodValB v && !(decide (k ∈ rest.keys)) && GoodFieldsB rest

/-- A well-formed flat record: non-empty with good, distinct fields. -/
def WFRecordB (r : Fields) : Bool := !r.isEmpty && GoodFieldsB r

/-- A well-formed flat dataset: every record well-formed. -/
def WFDatasetB (d : List Fields) : Bool := d.all WFRecordB

mutual
/-- No newline occurs in any rendered token of the value, and every nested
object is non-empty (an empty object renders as an empty line). -/
def NoNLVal : Value → Bool
  | .str s => !(decide ('\n' ∈ s))
  | .int _ => true
  | .bool _ => true
  | .list es => es.all (fun e => !(decide ('\n' ∈ e)))
  | .obj fs => !fs.isEmpty && NoNLFields fs
/-- No newline occurs in any key or rendered token of the record, and every
nested object is non-empty. -/
def NoNLFields : Fields → Bool
  | .nil => true
  | .cons k v rest => !(decide ('\n' ∈ k)) && NoNLVal v && NoNLFields rest
end

/-- The positions at which the record separator occurs in a text. -/
def sepOccurrences (s : List Char) : List Nat :=
  (List.range s.length).filter (fun p => SEP.isPrefixOf (s.drop p))

/-- A well-shaped rendered block: non-empty, holding no blank line (no two
adjacent newlines) and neither starting nor ending with a newline. -/
def GoodBlockStr (b : List Char) : Prop :=
  b ≠ [] ∧ ¬ (['\n', '\n'] <:+: b) ∧ b.head? ≠ some '\n' ∧ b.getLast? ≠ some '\n'

/- Basic facts about strip, indent and join. -/

theorem isPrefixOfP {l1 l2 : List Char} : l1.isPrefixOf l2 = true ↔ l1 <+: l2 :=
  List.isPrefixOf_iff_prefix


theorem lstripCL_cons_of_not_space {c : Char} (s : List Char) (h : pyIsSpace c = false) :
    lstripCL (c :: s) = c :: s := by
  simp [lstripCL, List.dropWhile_cons, h]

theorem rstripCL_append_last {c : Char} (s : List Char) (h : pyIsSpace c = false) :
    rstripCL (s ++ [c]) = s ++ [c] := by
  simp [rstripCL, List.dropWhile_cons, h]

theorem rstripCL_eq_self {s : List Char} (h : ∀ c ∈ s.getLast?, pyIsSpace c = false) :
    rstripCL s = s := by
  cases hs : s.getLast? with
  | none => rw [List.getLast?_eq_none_iff.mp hs]; rfl
  | some c =>
    have hd := List.dropLast_append_getLast? c hs
    rw [← hd]
    exact rstripCL_append_last _ (h c hs)

theorem stripCL_eq_self {s : List Char}
    (h1 : ∀ c ∈ s.head?, pyIsSpace c = false)
    (h2 : ∀ c ∈ s.getLast?, pyIsSpace c = false) : stripCL s = s := by
  cases s with
  | nil => rfl
  | cons c t =>
    rw [stripCL, lstripCL_cons_of_not_space t (h1 c rfl)]
    exact rstripCL_eq_self h2

theorem indentOf_cons_of_not_space {c : Char} (s : List Char) (h : pyIsSpace c = false) :
    indentOf (c :: s) = 0 := by
  simp [indentOf, lstripCL_cons_of_not_space s h]

theorem stripCL_cons_ne_nil {c : Char} (s : List Char) (h : pyIsSpace c = false) :
    stripCL (c :: s) ≠ [] := by
  rw [stripCL, lstripCL_cons_of_not_space s h, rstripCL]
  intro hc
  have h2 : List.dropWhile pyIsSpace ((c :: s).reverse) = [] := List.reverse_eq_nil_iff.mp hc
  have h3 := List.dropWhile_eq_nil_iff.mp h2 c (by simp)
  rw [h] at h3
  exact Bool.false_ne_true h3

theorem joinCL_cons_of_ne_nil (sep x : List Char) (xs : List (List Char)) (h : xs ≠ []) :
    joinCL sep (x :: xs) = x ++ sep ++ joinCL sep xs := by
  cases xs with
  | nil => exact absurd rfl h
  | cons y ys => rfl

/- The split engine versus join: each separator used by the codec. -/

theorem splitLoop_cons_zero (sep : List Char) (c : Char) (rest acc : List Char) :
    splitLoop sep (c :: rest) acc 0 =
      if sep.isPrefixOf (c :: rest) then acc.reverse :: splitLoop sep rest [] (sep.length - 1)
      else splitLoop sep rest (c :: acc) 0 := rfl

theorem splitLoop_skip (sep y tail acc : List Char) :
    splitLoop sep (y ++ tail) acc y.length = splitLoop sep tail acc 0 := by
  induction y with
  | nil => rfl
  | cons c y ih => simpa [splitLoop] using ih

theorem splitLoop_SEP_append (b tail acc : List Char)
    (hb : ¬ (['\n', '\n'] <:+: b)) (hl : b.getLast? ≠ some '\n') :
    splitLoop SEP (b ++ tail) acc 0 = splitLoop SEP tail (b.reverse ++ acc) 0 := by
  induction b generalizing acc with
  | nil => rfl
  | cons c b ih =>
    have hpre : SEP.isPrefixOf (c :: (b ++ tail)) = false := by
      rw [← Bool.not_eq_true, isPrefixOfP]
      intro hp
      rw [show SEP = '\n' :: ('\n' :: cl "--------\n\n") from rfl, List.cons_prefix_cons] at hp
      obtain ⟨hc, hp2⟩ := hp
      cases b with
      | nil => exact hl (by simp [← hc])
      | cons d b2 =>
        rw [List.cons_append, List.cons_prefix_cons] at hp2
        obtain ⟨hd, _⟩ := hp2
        exact hb ⟨[], b2, by rw [← hc, ← hd]; rfl⟩
    have hb2 : ¬ (['\n', '\n'] <:+: b) := fun hx => hb (List.infix_cons hx)
    have hl2 : b.getLast? ≠ some '\n' := by
      cases b with
      | nil => simp
      | cons d b2 => rw [← List.getLast?_cons_cons]; exact hl
    rw [List.cons_append, splitLoop_cons_zero, hpre]
    simp only [Bool.false_eq_true, if_false]
    rw [ih (c :: acc) hb2 hl2]
    simp [List.append_assoc]

theorem splitLoop_SEP_cut (rest acc : List Char) :
    splitLoop SEP (SEP ++ rest) acc 0 = acc.reverse :: splitLoop SEP rest [] 0 := by
  have h1 : SEP ++ rest = '\n' :: (cl "\n--------\n\n" ++ rest) := rfl
  have hpre : SEP.isPrefixOf ('\n' :: (cl "\n--------\n\n" ++ rest)) = true := by
    rw [isPrefixOfP]
    exact ⟨rest, by rw [← h1]⟩
  rw [h1, splitLoop_cons_zero, hpre]
  simp only [if_true]
  rw [show SEP.length - 1 = (cl "\n--------\n\n").length from rfl, splitLoop_skip]

theorem splitOn_joinCL_SEP (blocks : List (List Char)) (hne : blocks ≠ [])
    (hb : ∀ b ∈ blocks, ¬ (['\n', '\n'] <:+: b) ∧ b.getLast? ≠ some '\n') :
    splitOnCL SEP (joinCL SEP blocks) = blocks := by
  induction blocks with
  | nil => exact absurd rfl hne
  | cons b bs ih =>
    cases bs with
    | nil =>
      show splitLoop SEP (joinCL SEP [b]) [] 0 = [b]
      have hstep := splitLoop_SEP_append b [] [] (hb b (by simp)).1 (hb b (by simp)).2
      simpa [splitLoop] using hstep
    | cons b2 bs2 =>
      rw [joinCL_cons_of_ne_nil _ _ _ (by simp)]
      show splitLoop SEP (b ++ SEP ++ joinCL SEP (b2 :: bs2)) [] 0 = b :: b2 :: bs2
      rw [List.append_assoc,
        splitLoop_SEP_append b _ [] (hb b (by simp)).1 (hb b (by simp)).2,
        splitLoop_SEP_cut]
      have ih2 := ih (by simp) (fun x hx => hb x (by simp [hx]))
      simp only [List.append_nil, List.reverse_reverse]
      exact congrArg (b :: ·) ih2

theorem splitLoop_NL_append (b tail acc : List Char) (hb : '\n' ∉ b) :
    splitLoop ['\n'] (b ++ tail) acc 0 = splitLoop ['\n'] tail (b.reverse ++ acc) 0 := by
  induction b generalizing acc with
  | nil => rfl
  | cons c b ih =>
    have hpre : (['\n'] : List Char).isPrefixOf (c :: (b ++ tail)) = false := by
      rw [← Bool.not_eq_true, isPrefixOfP]
      intro hp
      rw [List.cons_prefix_cons] at hp
      exact hb (by simp [← hp.1])
    rw [List.cons_append, splitLoop_cons_zero, hpre]
    simp only [Bool.false_eq_true, if_false]
    rw [ih (c :: acc) (fun hx => hb (by simp [hx]))]
    simp [List.append_assoc]

theorem splitLoop_NL_cut (rest acc : List Char) :
    splitLoop ['\n'] ('\n' :: rest) acc 0 = acc.reverse :: splitLoop ['\n'] rest [] 0 := by
  have hpre : (['\n'] : List Char).isPrefixOf ('\n' :: rest) = true := by
    rw [isPrefixOfP]
    exact ⟨rest, rfl⟩
  rw [splitLoop_cons_zero, hpre]
  simp [splitLoop]

theorem splitOn_joinCL_NL (lines : List (List Char)) (hne : lines ≠ [])
    (hb : ∀ l ∈ lines, '\n' ∉ l) :
    splitOnCL ['\n'] (joinCL ['\n'] lines) = lines := by
  induction lines with
  | nil => exact absurd rfl hne
  | cons b bs ih =>
    cases bs with
    | nil =>
      show splitLoop ['\n'] (joinCL ['\n'] [b]) [] 0 = [b]
      have hstep := splitLoop_NL_append b [] [] (hb b (by simp))
      simpa [splitLoop] using hstep
    | cons b2 bs2 =>
      rw [joinCL_cons_of_ne_nil _ _ _ (by simp)]
      show splitLoop ['\n'] (b ++ ['\n'] ++ joinCL ['\n'] (b2 :: bs2)) [] 0 = b :: b2 :: bs2
      rw [List.append_assoc, splitLoop_NL_append b _ [] (hb b (by simp)),
        List.singleton_append, splitLoop_NL_cut]
      have ih2 := ih (by simp) (fun x hx => hb x (by simp [hx]))
      simp only [List.append_nil, List.reverse_reverse]
      exact congrArg (b :: ·) ih2

theorem splitLoop_COMSP_append (e tail acc : List Char) (he : ¬ (COMSP <:+: e))
    (htail : tail = [] ∨ ∃ r, tail = ',' :: (' ' :: r)) :
    splitLoop COMSP (e ++ tail) acc 0 = splitLoop COMSP tail (e.reverse ++ acc) 0 := by
  induction e generalizing acc with
  | nil => rfl
  | cons c e ih =>
    have hpre : COMSP.isPrefixOf (c :: (e ++ tail)) = false := by
      rw [← Bool.not_eq_true, isPrefixOfP]
      intro hp
      rw [show COMSP = ',' :: [' '] from rfl, List.cons_prefix_cons] at hp
      obtain ⟨hc, hp2⟩ := hp
      cases e with
      | nil =>
        rcases htail with h0 | ⟨r, hr⟩
        · rw [h0] at hp2
          simp at hp2
        · rw [hr] at hp2
          rw [List.nil_append, List.cons_prefix_cons] at hp2
          simp at hp2
      | cons d e2 =>
        rw [List.cons_append, List.cons_prefix_cons] at hp2
        obtain ⟨hd, _⟩ := hp2
        exact he ⟨[], e2, by rw [← hc, ← hd]; rfl⟩
    have he2 : ¬ (COMSP <:+: e) := fun hx => he (List.infix_cons hx)
    rw [List.cons_append, splitLoop_cons_zero, hpre]
    simp only [Bool.false_eq_true, if_false]
    rw [ih (c :: acc) he2]
    simp [List.append_assoc]

theorem splitLoop_COMSP_cut (rest acc : List Char) :
    splitLoop COMSP (COMSP ++ rest) acc 0 = acc.reverse :: splitLoop COMSP rest [] 0 := by
  have hpre : COMSP.isPrefixOf (',' :: (' ' :: rest)) = true := by
    rw [isPrefixOfP]
    exact ⟨rest, rfl⟩
  rw [show COMSP ++ rest = ',' :: (' ' :: rest) from rfl, splitLoop_cons_zero, hpre]
  simp [splitLoop]

theorem splitOn_joinCL_COMSP (es : List (List Char)) (hne : es ≠ [])
    (hb : ∀ e ∈ es, ¬ (COMSP <:+: e)) :
    splitOnCL COMSP (joinCL COMSP es) = es := by
  induction es with
  | nil => exact absurd rfl hne
  | cons b bs ih =>
    cases bs with
    | nil =>
      show splitLoop COMSP (joinCL COMSP [b]) [] 0 = [b]
      have hstep := splitLoop_COMSP_append b [] [] (hb b (by simp)) (Or.inl rfl)
      simpa [splitLoop] using hstep
    | cons b2 bs2 =>
      rw [joinCL_cons_of_ne_nil _ _ _ (by simp)]
      show splitLoop COMSP (b ++ COMSP ++ joinCL COMSP (b2 :: bs2)) [] 0 = b :: b2 :: bs2
      rw [List.append_assoc,
        splitLoop_COMSP_append b (COMSP ++ joinCL COMSP (b2 :: bs2)) [] (hb b (by simp))
          (Or.inr ⟨joinCL COMSP (b2 :: bs2), rfl⟩),
        splitLoop_COMSP_cut]
      have ih2 := ih (by simp) (fun x hx => hb x (by simp [hx]))
      simp only [List.append_nil, List.reverse_reverse]
      exact congrArg (b :: ·) ih2

/- The first-occurrence split on ": " used for key/value lines. -/

theorem splitFirstAux_cons (sep : List Char) (c : Char) (rest acc : List Char) :
    splitFirstAux sep (c :: rest) acc =
      if sep.isPrefixOf (c :: rest) then some (acc.reverse, (c :: rest).drop sep.length)
      else splitFirstAux sep rest (c :: acc) := rfl

theorem splitFirstAux_COLSP (k v acc : List Char) (hk : ¬ (COLSP <:+: k)) :
    splitFirstAux COLSP (k ++ (COLSP ++ v)) acc = some (acc.reverse ++ k, v) := by
  induction k generalizing acc with
  | nil =>
    have hpre : COLSP.isPrefixOf (':' :: (' ' :: v)) = true := by
      rw [isPrefixOfP]; exact ⟨v, rfl⟩
    show splitFirstAux COLSP (':' :: (' ' :: v)) acc = some (acc.reverse ++ [], v)
    rw [splitFirstAux_cons, hpre]
    simp only [List.append_nil, if_true]
    rfl
  | cons c k ih =>
    have hpre : COLSP.isPrefixOf (c :: (k ++ (COLSP ++ v))) = false := by
      rw [← Bool.not_eq_true, isPrefixOfP]
      intro hp
      rw [show COLSP = ':' :: [' '] from rfl, List.cons_prefix_cons] at hp
      obtain ⟨hc, hp2⟩ := hp
      cases k with
      | nil =>
        have hp3 : ([' '] : List Char) <+: ':' :: (' ' :: v) := hp2
        obtain ⟨t, ht⟩ := hp3
        simp at ht
      | cons d k2 =>
        rw [List.cons_append, List.cons_prefix_cons] at hp2
        obtain ⟨hd, _⟩ := hp2
        exact hk ⟨[], k2, by rw [← hc, ← hd]; rfl⟩
    rw [List.cons_append, splitFirstAux_cons, hpre]
    simp only [Bool.false_eq_true, if_false]
    rw [ih (c :: acc) (fun hx => hk (List.infix_cons hx))]
    simp

theorem splitFirstCL_COLSP (k v : List Char) (hk : ¬ (COLSP <:+: k)) :
    splitFirstCL COLSP (k ++ (COLSP ++ v)) = some (k, v) := by
  have h := splitFirstAux_COLSP k v [] hk
  simpa [splitFirstCL] using h

/- Facts about the decimal rendering of integers. -/

theorem digitCh_spec (d : Nat) (h : d < 10) :
    isDigitCh (digitCh d) = true ∧ (digitCh d).toNat - 48 = d := by
  interval_cases d <;> exact ⟨rfl, rfl⟩

theorem foldr_ofDigits (L : List Nat) (h : ∀ d ∈ L, d < 10) :
    L.foldr (fun d a => a * 10 + ((digitCh d).toNat - 48)) 0 = Nat.ofDigits 10 L := by
  induction L with
  | nil => rfl
  | cons d L ih =>
    have hd := (digitCh_spec d (h d (by simp))).2
    rw [List.foldr_cons, ih (fun x hx => h x (by simp [hx])), hd, Nat.ofDigits_cons]
    ring

theorem natOfDigits_fmtNat (n : Nat) : natOfDigits (fmtNat n) = n := by
  by_cases h : n = 0
  · subst h; rfl
  · rw [fmtNat, if_neg h, natOfDigits, List.foldl_reverse, List.foldr_map]
    rw [foldr_ofDigits _ (fun d hd => Nat.digits_lt_base (by norm_num) hd)]
    exact Nat.ofDigits_digits 10 n

theorem fmtNat_all_digit (n : Nat) : ∀ c ∈ fmtNat n, isDigitCh c = true := by
  intro c hc
  by_cases h : n = 0
  · subst h
    simp [fmtNat] at hc
    subst hc
    rfl
  · rw [fmtNat, if_neg h, List.mem_reverse, List.mem_map] at hc
    obtain ⟨d, hd, rfl⟩ := hc
    exact (digitCh_spec d (Nat.digits_lt_base (by norm_num) hd)).1

theorem fmtNat_ne_nil (n : Nat) : fmtNat n ≠ [] := by
  by_cases h : n = 0
  · subst h; simp [fmtNat]
  · rw [fmtNat, if_neg h]
    simp [Nat.digits_ne_nil_iff_ne_zero, h]

theorem lowerCL_fmtNat (n : Nat) : lowerCL (fmtNat n) = fmtNat n := by
  by_cases h : n = 0
  · subst h; rfl
  · rw [fmtNat, if_neg h, lowerCL, List.map_reverse, List.map_map]
    congr 1
    apply List.map_congr_left
    intro d hd
    have hlt := Nat.digits_lt_base (by norm_num) hd
    interval_cases d <;> rfl

theorem not_space_of_digit {c : Char} (h : isDigitCh c = true) : pyIsSpace c = false := by
  cases hx : pyIsSpace c with
  | false => rfl
  | true =>
    exfalso
    simp only [pyIsSpace, Bool.or_eq_true, beq_iff_eq] at hx
    rcases hx with ((((rfl | rfl) | rfl) | rfl) | rfl) | rfl <;> exact absurd h (by decide)

/- Inverting parse_value on each rendered scalar token. -/

theorem parse_value_of_strip_id (s : List Char) (hs : stripCL s = s) :
    parse_value s =
      if (cl "[").isPrefixOf s && (cl "]").isSuffixOf s then
        Value.list (((splitOnCL COMSP ((s.drop 1).dropLast)).map stripCL).filter
          (fun x => !x.isEmpty))
      else if lowerCL s == cl "true" || lowerCL s == cl "false" then
        Value.bool (lowerCL s == cl "true")
      else if !s.isEmpty && s.all isDigitCh then
        Value.int (natOfDigits s)
      else
        Value.str s := by
  simp only [parse_value, hs]

theorem stripCL_eq_self_headD {s : List Char} (hne : s ≠ [])
    (h1 : pyIsSpace (s.headD ' ') = false) (h2 : pyIsSpace (s.getLastD ' ') = false) :
    stripCL s = s := by
  apply stripCL_eq_self
  · intro c hc
    cases s with
    | nil => exact absurd rfl hne
    | cons a t =>
      simp at hc
      subst hc
      simpa using h1
  · intro c hc
    have hgd : s.getLastD ' ' = c := by
      rw [List.getLastD_eq_getLast?, Option.mem_def.mp hc]
      rfl
    rw [← hgd]
    exact h2

theorem parse_value_goodStr (s : List Char) (h : GoodStrB s = true) : parse_value s = .str s := by
  simp only [GoodStrB, Bool.and_eq_true, Bool.not_eq_true'] at h
  obtain ⟨⟨⟨⟨⟨⟨⟨h1, h2⟩, h3⟩, h4⟩, h5⟩, h6⟩, h7⟩, h8⟩ := h
  have hne : s ≠ [] := by
    cases s with
    | nil => simp at h1
    | cons a t => simp
  have hs : stripCL s = s := stripCL_eq_self_headD hne h2 h3
  rw [parse_value_of_strip_id s hs, h5]
  simp only [Bool.false_eq_true, if_false]
  rw [h6, h7]
  simp only [Bool.or_self, Bool.false_eq_true, if_false]
  rw [h8]
  simp

theorem parse_value_fmtNat (n : Nat) : parse_value (fmtNat n) = .int n := by
  have hall := fmtNat_all_digit n
  have hne := fmtNat_ne_nil n
  have hs : stripCL (fmtNat n) = fmtNat n :=
    stripCL_eq_self (fun c hc => not_space_of_digit (hall c (List.mem_of_mem_head? hc)))
      (fun c hc => not_space_of_digit (hall c (List.mem_of_mem_getLast? hc)))
  have hbr : ((cl "[").isPrefixOf (fmtNat n) && (cl "]").isSuffixOf (fmtNat n)) = false := by
    cases hx : (cl "[").isPrefixOf (fmtNat n) with
    | false => rfl
    | true =>
      exfalso
      obtain ⟨t, ht⟩ := isPrefixOfP.mp hx
      have hm : '[' ∈ fmtNat n := by
        rw [← ht]
        exact List.mem_append_left _ (by decide)
      exact absurd (hall _ hm) (by decide)
  have htr : (lowerCL (fmtNat n) == cl "true") = false := by
    rw [lowerCL_fmtNat]
    cases hx : fmtNat n == cl "true" with
    | false => rfl
    | true =>
      exfalso
      have hm : 't' ∈ fmtNat n := by rw [eq_of_beq hx]; decide
      exact absurd (hall _ hm) (by decide)
  have hfa : (lowerCL (fmtNat n) == cl "false") = false := by
    rw [lowerCL_fmtNat]
    cases hx : fmtNat n == cl "false" with
    | false => rfl
    | true =>
      exfalso
      have hm : 'f' ∈ fmtNat n := by rw [eq_of_beq hx]; decide
      exact absurd (hall _ hm) (by decide)
  rw [parse_value_of_strip_id _ hs, hbr]
  simp only [Bool.false_eq_true, if_false]
  rw [htr, hfa]
  simp only [Bool.or_self, Bool.false_eq_true, if_false]
  have hisem : (fmtNat n).isEmpty = false := by
    cases hfn : fmtNat n with
    | nil => exact absurd hfn hne
    | cons a t => rfl
  have hallb : (fmtNat n).all isDigitCh = true := List.all_eq_true.mpr hall
  rw [hisem, hallb]
  simp only [Bool.not_false, Bool.true_and, if_true]
  rw [natOfDigits_fmtNat]

theorem goodElem_strip_id {e : List Char} (h : GoodElemB e = true) :
    stripCL e = e ∧ e.isEmpty = false ∧ ¬ (COMSP <:+: e) := by
  simp only [GoodElemB, Bool.and_eq_true, Bool.not_eq_true', decide_eq_false_iff_not] at h
  obtain ⟨⟨⟨⟨g1, g2⟩, g3⟩, g4⟩, g5⟩ := h
  refine ⟨stripCL_eq_self_headD ?_ g2 g3, g1, g5⟩
  cases e with
  | nil => simp at g1
  | cons a t => simp

theorem parse_value_goodList (es : List (List Char)) (h : ∀ e ∈ es, GoodElemB e = true) :
    parse_value ('[' :: (joinCL COMSP es ++ [']'])) = .list es := by
  cases es with
  | nil => decide
  | cons e es2 =>
    have hgood : ∀ x ∈ (e :: es2), ¬ (COMSP <:+: x) :=
      fun x hx => (goodElem_strip_id (h x hx)).2.2
    have hlast : ('[' :: (joinCL COMSP (e :: es2) ++ [']'])).getLast? = some ']' := by
      rw [show '[' :: (joinCL COMSP (e :: es2) ++ [']']) =
        ('[' :: joinCL COMSP (e :: es2)) ++ [']'] from rfl]
      exact List.getLast?_concat _
    have hs : stripCL ('[' :: (joinCL COMSP (e :: es2) ++ [']'])) =
        '[' :: (joinCL COMSP (e :: es2) ++ [']']) := by
      apply stripCL_eq_self
      · intro c hc
        have hca : '[' = c := by simpa using hc
        subst hca
        decide
      · intro c hc
        have hcc : c = ']' := by
          have := Option.mem_def.mp hc
          rw [hlast] at this
          exact (Option.some.injEq _ _).mp this.symm
        subst hcc
        decide
    have hpre : (cl "[").isPrefixOf ('[' :: (joinCL COMSP (e :: es2) ++ [']'])) = true := by
      rw [isPrefixOfP]
      exact ⟨_, rfl⟩
    have hsuf : (cl "]").isSuffixOf ('[' :: (joinCL COMSP (e :: es2) ++ [']'])) = true := by
      rw [List.isSuffixOf_iff_suffix]
      exact ⟨'[' :: joinCL COMSP (e :: es2), rfl⟩
    rw [parse_value_of_strip_id _ hs, hpre, hsuf]
    simp only [Bool.and_self, if_true]
    have hdrop : ((('[' :: (joinCL COMSP (e :: es2) ++ [']'])).drop 1).dropLast) =
        joinCL COMSP (e :: es2) := by
      show (joinCL COMSP (e :: es2) ++ [']']).dropLast = joinCL COMSP (e :: es2)
      exact List.dropLast_concat
    rw [hdrop, splitOn_joinCL_COMSP (e :: es2) (by simp) hgood]
    have hmap : (e :: es2).map stripCL = e :: es2 := by
      have h2 : (e :: es2).map stripCL = (e :: es2).map id :=
        List.map_congr_left (fun x hx => by simpa using (goodElem_strip_id (h x hx)).1)
      rw [h2, List.map_id]
    rw [hmap]
    rw [List.filter_eq_self.mpr]
    intro x hx
    have := (goodElem_strip_id (h x hx)).2.1
    simp [this]

/- Core facts about the block-parser loop. -/

theorem refIndent_cons (l : List Char) (ls : List (List Char)) (j : Nat) :
    refIndent (l :: ls) (j + 1) = refIndent ls j := by
  simp only [refIndent, List.length_cons]
  by_cases h : j < ls.length
  · rw [dif_pos (by omega), dif_pos h]
    simp
  · rw [dif_neg (by omega), dif_neg h]

theorem parseLoop_succ_end (fuel : Nat) (lines : List (List Char)) (cur : Nat) (acc : Fields)
    (i : Nat) (h : ¬ i < lines.length) :
    parseLoop (fuel + 1) lines cur acc i = some (acc, i) := by
  rw [parseLoop, dif_neg h]

theorem parseLoop_succ (fuel : Nat) (lines : List (List Char)) (cur : Nat) (acc : Fields)
    (i : Nat) (h : i < lines.length) :
    parseLoop (fuel + 1) lines cur acc i =
      if (stripCL lines[i]).isEmpty then parseLoop fuel lines cur acc (i + 1)
      else if indentOf lines[i] < cur then some (acc, i)
      else if cur < indentOf lines[i] then parseLoop fuel lines cur acc (i + 1)
      else
        match splitFirstCL COLSP (stripCL lines[i]) with
        | some (k, v) => parseLoop fuel lines cur (acc.insert k (parse_value v)) (i + 1)
        | none =>
          if (cl ":").isSuffixOf (stripCL lines[i]) then
            match parseLoop fuel lines (refIndent lines (i + 1)) .nil (i + 1) with
            | none => none
            | some (nested, nexti) =>
              parseLoop fuel lines cur
                (acc.insert ((stripCL lines[i]).dropLast) (.obj nested)) nexti
          else parseLoop fuel lines cur acc (i + 1) := by
  rw [parseLoop, dif_pos h]

theorem parseLoop_le (fuel : Nat) : ∀ lines cur acc i r j,
    parseLoop fuel lines cur acc i = some (r, j) →
    i ≤ j ∧ (i ≤ lines.length → j ≤ lines.length) := by
  induction fuel with
  | zero =>
    intro lines cur acc i r j h
    simp [parseLoop] at h
  | succ fuel ih =>
    intro lines cur acc i r j h
    by_cases hb : i < lines.length
    · rw [parseLoop_succ fuel lines cur acc i hb] at h
      by_cases h1 : (stripCL lines[i]).isEmpty = true
      · rw [if_pos h1] at h
        have hx := ih lines cur acc (i + 1) r j h
        exact ⟨by omega, fun _ => hx.2 (by omega)⟩
      · rw [if_neg h1] at h
        by_cases h2 : indentOf lines[i] < cur
        · rw [if_pos h2] at h
          simp only [Option.some.injEq, Prod.mk.injEq] at h
          omega
        · rw [if_neg h2] at h
          by_cases h3 : cur < indentOf lines[i]
          · rw [if_pos h3] at h
            have hx := ih lines cur acc (i + 1) r j h
            exact ⟨by omega, fun _ => hx.2 (by omega)⟩
          · rw [if_neg h3] at h
            cases hsp : splitFirstCL COLSP (stripCL lines[i]) with
            | some kv =>
              obtain ⟨k, v⟩ := kv
              simp only [hsp] at h
              have hx := ih lines cur _ (i + 1) r j h
              exact ⟨by omega, fun _ => hx.2 (by omega)⟩
            | none =>
              simp only [hsp] at h
              by_cases h4 : (cl ":").isSuffixOf (stripCL lines[i]) = true
              · rw [if_pos h4] at h
                cases hnest : parseLoop fuel lines (refIndent lines (i + 1)) Fields.nil (i + 1)
                  with
                | none =>
                  rw [hnest] at h
                  exact absurd h (by simp)
                | some p =>
                  obtain ⟨nested, nexti⟩ := p
                  rw [hnest] at h
                  have hxa := ih lines _ Fields.nil (i + 1) nested nexti hnest
                  have hxb := ih lines cur _ nexti r j h
                  exact ⟨by omega, fun _ => hxb.2 (hxa.2 (by omega))⟩
              · rw [if_neg h4] at h
                have hx := ih lines cur acc (i + 1) r j h
                exact ⟨by omega, fun _ => hx.2 (by omega)⟩
    · rw [parseLoop_succ_end fuel lines cur acc i hb] at h
      simp only [Option.some.injEq, Prod.mk.injEq] at h
      omega

theorem parseLoop_isSome (fuel : Nat) : ∀ lines cur acc i,
    i ≤ lines.length → lines.length < fuel + i →
    (parseLoop fuel lines cur acc i).isSome = true := by
  induction fuel with
  | zero =>
    intro lines cur acc i h1 h2
    omega
  | succ fuel ih =>
    intro lines cur acc i h1 h2
    by_cases hb : i < lines.length
    · rw [parseLoop_succ fuel lines cur acc i hb]
      by_cases hc1 : (stripCL lines[i]).isEmpty = true
      · rw [if_pos hc1]
        exact ih lines cur acc (i + 1) (by omega) (by omega)
      · rw [if_neg hc1]
        by_cases hc2 : indentOf lines[i] < cur
        · rw [if_pos hc2]
          simp
        · rw [if_neg hc2]
          by_cases hc3 : cur < indentOf lines[i]
          · rw [if_pos hc3]
            exact ih lines cur acc (i + 1) (by omega) (by omega)
          · rw [if_neg hc3]
            cases hsp : splitFirstCL COLSP (stripCL lines[i]) with
            | some kv =>
              obtain ⟨k, v⟩ := kv
              exact ih lines cur _ (i + 1) (by omega) (by omega)
            | none =>
              by_cases hc4 : (cl ":").isSuffixOf (stripCL lines[i]) = true
              · rw [if_pos hc4]
                have hin := ih lines (refIndent lines (i + 1)) Fields.nil (i + 1)
                  (by omega) (by omega)
                obtain ⟨⟨nested, nexti⟩, hn⟩ := Option.isSome_iff_exists.mp hin
                rw [hn]
                have hle := parseLoop_le fuel lines _ Fields.nil (i + 1) nested nexti hn
                exact ih lines cur _ nexti (hle.2 (by omega)) (by omega)
              · rw [if_neg hc4]
                exact ih lines cur acc (i + 1) (by omega) (by omega)
    · rw [parseLoop_succ_end fuel lines cur acc i hb]
      simp

theorem parseLoop_shift (fuel : Nat) : ∀ (l : List Char) (ls : List (List Char)) cur acc i,
    parseLoop fuel (l :: ls) cur acc (i + 1) =
      (parseLoop fuel ls cur acc i).map (fun p => (p.1, p.2 + 1)) := by
  induction fuel with
  | zero =>
    intro l ls cur acc i
    rfl
  | succ fuel ih =>
    intro l ls cur acc i
    by_cases hb : i < ls.length
    · have hb2 : i + 1 < (l :: ls).length := by
        simp only [List.length_cons]
        omega
      rw [parseLoop_succ fuel (l :: ls) cur acc (i + 1) hb2,
          parseLoop_succ fuel ls cur acc i hb]
      simp only [List.getElem_cons_succ]
      by_cases hc1 : (stripCL ls[i]).isEmpty = true
      · rw [if_pos hc1, if_pos hc1]
        exact ih l ls cur acc (i + 1)
      · rw [if_neg hc1, if_neg hc1]
        by_cases hc2 : indentOf ls[i] < cur
        · rw [if_pos hc2, if_pos hc2]
          rfl
        · rw [if_neg hc2, if_neg hc2]
          by_cases hc3 : cur < indentOf ls[i]
          · rw [if_pos hc3, if_pos hc3]
            exact ih l ls cur acc (i + 1)
          · rw [if_neg hc3, if_neg hc3]
            cases hsp : splitFirstCL COLSP (stripCL ls[i]) with
            | some kv =>
              obtain ⟨k, v⟩ := kv
              simp only [hsp]
              exact ih l ls cur _ (i + 1)
            | none =>
              simp only [hsp]
              by_cases hc4 : (cl ":").isSuffixOf (stripCL ls[i]) = true
              · rw [if_pos hc4, if_pos hc4]
                rw [show i + 1 + 1 = (i + 1) + 1 from rfl, refIndent_cons l ls (i + 1)]
                rw [ih l ls (refIndent ls (i + 1)) Fields.nil (i + 1)]
                cases hn : parseLoop fuel ls (refIndent ls (i + 1)) Fields.nil (i + 1) with
                | none =>
                  simp only [hn, Option.map_none']
                | some p =>
                  obtain ⟨nested, nexti⟩ := p
                  simp only [hn, Option.map_some']
                  exact ih l ls cur _ nexti
              · rw [if_neg hc4, if_neg hc4]
                exact ih l ls cur acc (i + 1)
    · have hb2 : ¬ (i + 1 < (l :: ls).length) := by
        simp only [List.length_cons]
        omega
      rw [parseLoop_succ_end fuel (l :: ls) cur acc (i + 1) hb2,
          parseLoop_succ_end fuel ls cur acc i hb]
      rfl

/- Mapping lemmas. -/

theorem Fields.append_nil : ∀ (a : Fields), a.append .nil = a
  | .nil => rfl
  | .cons k v rest => by rw [Fields.append, Fields.append_nil rest]

theorem Fields.append_assoc : ∀ (a : Fields) (b c : Fields),
    (a.append b).append c = a.append (b.append c)
  | .nil, _, _ => rfl
  | .cons k v rest, b, c => by
    rw [Fields.append, Fields.append, Fields.append, Fields.append_assoc rest b c]

theorem Fields.keys_append : ∀ (a b : Fields), (a.append b).keys = a.keys ++ b.keys
  | .nil, _ => rfl
  | .cons k v rest, b => by
    rw [Fields.append, Fields.keys, Fields.keys, Fields.keys_append rest b, List.cons_append]

theorem Fields.insert_fresh : ∀ (a : Fields) (k : List Char) (v : Value),
    k ∉ a.keys → a.insert k v = a.append (.cons k v .nil)
  | .nil, _, _, _ => rfl
  | .cons k0 v0 rest, k, v, h => by
    simp only [Fields.keys, List.mem_cons, not_or] at h
    rw [Fields.insert, if_neg (fun hx => h.1 hx.symm), Fields.append,
      Fields.insert_fresh rest k v h.2]

/- Facts about the single-line token of each good scalar value. -/

theorem headD_mem {s : List Char} (h : s ≠ []) : s.headD ' ' ∈ s := by
  cases s with
  | nil => exact absurd rfl h
  | cons a t => simp

theorem getLastD_mem {s : List Char} (h : s ≠ []) : s.getLastD ' ' ∈ s := by
  rw [List.getLastD_eq_getLast?]
  cases hx : s.getLast? with
  | none => exact absurd (List.getLast?_eq_none_iff.mp hx) h
  | some c =>
    have : c ∈ s := List.mem_of_mem_getLast? (show c ∈ s.getLast? from by rw [hx]; rfl)
    simpa using this

theorem mem_joinCL {c : Char} (sep : List Char) (xs : List (List Char))
    (h : c ∈ joinCL sep xs) : c ∈ sep ∨ ∃ x ∈ xs, c ∈ x := by
  induction xs with
  | nil => simp [joinCL] at h
  | cons x xs ih =>
    cases xs with
    | nil =>
      right
      exact ⟨x, by simp, h⟩
    | cons y ys =>
      rw [joinCL_cons_of_ne_nil _ _ _ (by simp)] at h
      rw [List.append_assoc, List.mem_append] at h
      rcases h with hx | h2
      · right
        exact ⟨x, by simp, hx⟩
      · rw [List.mem_append] at h2
        rcases h2 with hs | hj
        · exact Or.inl hs
        · rcases ih hj with hs | ⟨z, hz, hcz⟩
          · exact Or.inl hs
          · exact Or.inr ⟨z, by simp [hz], hcz⟩

theorem goodVal_token (v : Value) (h : GoodValB v = true) :
    format_value v 0 ≠ [] ∧
    pyIsSpace ((format_value v 0).headD ' ') = false ∧
    pyIsSpace ((format_value v 0).getLastD ' ') = false ∧
    '\n' ∉ format_value v 0 ∧
    parse_value (format_value v 0) = v := by
  cases v with
  | str s =>
    have hpv := parse_value_goodStr s h
    simp only [GoodValB, GoodStrB, Bool.and_eq_true, Bool.not_eq_true',
      decide_eq_false_iff_not] at h
    obtain ⟨⟨⟨⟨⟨⟨⟨h1, h2⟩, h3⟩, h4⟩, h5⟩, h6⟩, h7⟩, h8⟩ := h
    have hne : s ≠ [] := by
      cases s with
      | nil => simp at h1
      | cons a t => simp
    exact ⟨hne, h2, h3, h4, hpv⟩
  | int n =>
    have hall := fmtNat_all_digit n
    have hne := fmtNat_ne_nil n
    refine ⟨hne, not_space_of_digit (hall _ (headD_mem hne)),
      not_space_of_digit (hall _ (getLastD_mem hne)), ?_, parse_value_fmtNat n⟩
    intro hmem
    exact absurd (hall _ hmem) (by decide)
  | bool b =>
    cases b with
    | true => exact ⟨by decide, by decide, by decide, by decide, by decide⟩
    | false => exact ⟨by decide, by decide, by decide, by decide, by decide⟩
  | list es =>
    have hpv := parse_value_goodList es (List.all_eq_true.mp h)
    have hlast : ('[' :: (joinCL COMSP es ++ [']'])).getLastD ' ' = ']' := by
      rw [List.getLastD_eq_getLast?,
        show '[' :: (joinCL COMSP es ++ [']']) = ('[' :: joinCL COMSP es) ++ [']'] from rfl,
        List.getLast?_concat]
      rfl
    refine ⟨by show '[' :: (joinCL COMSP es ++ [']']) ≠ []; simp,
      by show pyIsSpace (('[' :: (joinCL COMSP es ++ [']'])).headD ' ') = false; rfl, ?_, ?_, hpv⟩
    · rw [show format_value (Value.list es) 0 = '[' :: (joinCL COMSP es ++ [']']) from rfl,
        hlast]
      decide
    · show '\n' ∉ '[' :: (joinCL COMSP es ++ [']'])
      intro hmem
      rcases List.mem_cons.mp hmem with hc | hc
      · simp at hc
      · rcases List.mem_append.mp hc with hj | hb
        · rcases mem_joinCL COMSP es hj with hs | ⟨e, he, hce⟩
          · simp [COMSP] at hs
          · have hg := List.all_eq_true.mp h e he
            simp only [GoodElemB, Bool.and_eq_true, Bool.not_eq_true',
              decide_eq_false_iff_not] at hg
            exact hg.1.2 hce
        · simp at hb
  | obj fs => simp [GoodValB] at h

theorem goodKey_facts {k : List Char} (h : GoodKeyB k = true) :
    k ≠ [] ∧ pyIsSpace (k.headD ' ') = false ∧ '\n' ∉ k ∧ ¬ (COLSP <:+: k) := by
  simp only [GoodKeyB, Bool.and_eq_true, Bool.not_eq_true', decide_eq_false_iff_not] at h
  obtain ⟨⟨⟨h1, h2⟩, h3⟩, h4⟩ := h
  refine ⟨?_, h2, h3, h4⟩
  cases k with
  | nil => simp at h1
  | cons a t => simp

theorem flat_line_facts (k : List Char) (v : Value) (hk : GoodKeyB k = true)
    (hv : GoodValB v = true) :
    stripCL (k ++ COLSP ++ format_value v 0) = k ++ COLSP ++ format_value v 0 ∧
    (k ++ COLSP ++ format_value v 0).isEmpty = false ∧
    indentOf (k ++ COLSP ++ format_value v 0) = 0 ∧
    splitFirstCL COLSP (k ++ COLSP ++ format_value v 0) = some (k, format_value v 0) ∧
    parse_value (format_value v 0) = v ∧
    '\n' ∉ (k ++ COLSP ++ format_value v 0) ∧
    pyIsSpace ((k ++ COLSP ++ format_value v 0).headD ' ') = false ∧
    pyIsSpace ((k ++ COLSP ++ format_value v 0).getLastD ' ') = false := by
  obtain ⟨hkne, hkh, hknl, hkcs⟩ := goodKey_facts hk
  obtain ⟨hvne, hvh, hvl, hvnl, hpv⟩ := goodVal_token v hv
  obtain ⟨kc, kt, rfl⟩ : ∃ c t, k = c :: t := by
    cases k with
    | nil => exact absurd rfl hkne
    | cons c t => exact ⟨c, t, rfl⟩
  have hkc : pyIsSpace kc = false := by simpa using hkh
  have hline_cons : (kc :: kt) ++ COLSP ++ format_value v 0 =
      kc :: (kt ++ COLSP ++ format_value v 0) := by simp
  have hheadD : ((kc :: kt) ++ COLSP ++ format_value v 0).headD ' ' = kc := by simp
  have hlastD : ((kc :: kt) ++ COLSP ++ format_value v 0).getLastD ' ' =
      (format_value v 0).getLastD ' ' := by
    rw [List.getLastD_eq_getLast?, List.getLastD_eq_getLast?,
      List.getLast?_append_of_ne_nil _ hvne]
  have hstrip : stripCL ((kc :: kt) ++ COLSP ++ format_value v 0) =
      (kc :: kt) ++ COLSP ++ format_value v 0 := by
    apply stripCL_eq_self_headD (by simp)
    · rw [hheadD]
      exact hkc
    · rw [hlastD]
      exact hvl
  have hnl : '\n' ∉ ((kc :: kt) ++ COLSP ++ format_value v 0) := by
    intro hm
    rcases List.mem_append.mp hm with hm1 | hm2
    · rcases List.mem_append.mp hm1 with hm3 | hm4
      · exact hknl hm3
      · simp [COLSP] at hm4
    · exact hvnl hm2
  refine ⟨hstrip, by rw [hline_cons]; rfl, ?_, ?_, hpv, hnl, by rw [hheadD]; exact hkc,
    by rw [hlastD]; exact hvl⟩
  · rw [hline_cons]
    exact indentOf_cons_of_not_space _ hkc
  · rw [List.append_assoc]
    exact splitFirstCL_COLSP _ _ hkcs

theorem recordLines_eq_scalar (k : List Char) (v : Value) (rest : Fields)
    (h : GoodValB v = true) :
    recordLines (.cons k v rest) = (k ++ COLSP ++ format_value v 0) :: recordLines rest := by
  cases v with
  | obj fs => simp [GoodValB] at h
  | str s => rfl
  | int n => rfl
  | bool b => rfl
  | list es => rfl

theorem goodFields_parts {k : List Char} {v : Value} {rest : Fields}
    (h : GoodFieldsB (.cons k v rest) = true) :
    GoodKeyB k = true ∧ GoodValB v = true ∧ k ∉ rest.keys ∧ GoodFieldsB rest = true := by
  simp only [GoodFieldsB, Bool.and_eq_true, Bool.not_eq_true', decide_eq_false_iff_not] at h
  exact ⟨h.1.1.1, h.1.1.2, h.1.2, h.2⟩

theorem recordLines_flat_facts : ∀ (r : Fields), GoodFieldsB r = true →
    ∀ l ∈ recordLines r, l ≠ [] ∧ '\n' ∉ l ∧ pyIsSpace (l.headD ' ') = false ∧
      pyIsSpace (l.getLastD ' ') = false ∧ indentOf l = 0
  | .nil, _, l, hl => by simp [recordLines] at hl
  | .cons k v rest, h, l, hl => by
    obtain ⟨hk, hv, hfresh, hrest⟩ := goodFields_parts h
    rw [recordLines_eq_scalar k v rest hv] at hl
    rcases List.mem_cons.mp hl with rfl | hl2
    · obtain ⟨hstrip, hemp, hind, hsf, hpv, hnl, hhd, hlast⟩ := flat_line_facts k v hk hv
      refine ⟨?_, hnl, hhd, hlast, hind⟩
      intro hx
      rw [hx] at hemp
      simp at hemp
    · exact recordLines_flat_facts rest hrest l hl2

theorem recordLines_length_flat : ∀ (r : Fields), GoodFieldsB r = true →
    (recordLines r).length = r.size
  | .nil, _ => rfl
  | .cons k v rest, h => by
    obtain ⟨hk, hv, hfresh, hrest⟩ := goodFields_parts h
    rw [recordLines_eq_scalar k v rest hv, List.length_cons,
      recordLines_length_flat rest hrest, Fields.size]
    omega

theorem parseFlat : ∀ (r : Fields) (fuel : Nat) (acc : Fields),
    GoodFieldsB r = true → (∀ k2 ∈ r.keys, k2 ∉ acc.keys) → r.size + 1 ≤ fuel →
    parseLoop fuel (recordLines r) 0 acc 0 = some (acc.append r, (recordLines r).length)
  | .nil, fuel, acc, _, _, hf => by
    obtain ⟨f, rfl⟩ : ∃ f, fuel = f + 1 := ⟨fuel - 1, by omega⟩
    rw [show recordLines .nil = [] from rfl,
      parseLoop_succ_end f [] 0 acc 0 (by simp), Fields.append_nil]
    rfl
  | .cons k v rest, fuel, acc, h, hdisj, hf => by
    obtain ⟨hk, hv, hfresh, hrest⟩ := goodFields_parts h
    obtain ⟨f, rfl⟩ : ∃ f, fuel = f + 1 := ⟨fuel - 1, by omega⟩
    obtain ⟨hstrip, hemp, hind, hsf, hpv, hnl, hhd, hlast⟩ := flat_line_facts k v hk hv
    rw [recordLines_eq_scalar k v rest hv]
    rw [parseLoop_succ f _ 0 acc 0 (by simp)]
    simp only [List.getElem_cons_zero]
    rw [hstrip]
    rw [if_neg (by rw [hemp]; simp)]
    rw [hind]
    rw [if_neg (by omega), if_neg (by omega)]
    rw [hsf]
    show parseLoop f ((k ++ COLSP ++ format_value v 0) :: recordLines rest) 0
      (acc.insert k (parse_value (format_value v 0))) (0 + 1) = _
    rw [hpv, Fields.insert_fresh acc k v (hdisj k (by simp [Fields.keys]))]
    rw [parseLoop_shift f _ (recordLines rest) 0 _ 0]
    have hdisj2 : ∀ k2 ∈ rest.keys, k2 ∉ (acc.append (.cons k v .nil)).keys := by
      intro k2 hk2
      rw [Fields.keys_append]
      rw [List.mem_append]
      push_neg
      refine ⟨hdisj k2 (by simp [Fields.keys, hk2]), ?_⟩
      simp only [Fields.keys, List.mem_cons, List.not_mem_nil, or_false]
      intro hx
      rw [hx] at hk2
      exact hfresh hk2
    have hf2 : rest.size + 1 ≤ f := by
      rw [Fields.size] at hf
      omega
    rw [parseFlat rest f (acc.append (.cons k v .nil)) hrest hdisj2 hf2]
    rw [Option.map_some']
    rw [Fields.append_assoc]
    rfl

/- From record blocks to whole texts. -/

theorem joinCL_ne_nil (sep : List Char) (xs : List (List Char)) (hne : xs ≠ [])
    (h : ∀ l ∈ xs, l ≠ []) : joinCL sep xs ≠ [] := by
  cases xs with
  | nil => exact absurd rfl hne
  | cons x ys =>
    cases ys with
    | nil => exact h x (by simp)
    | cons y ys2 =>
      rw [joinCL_cons_of_ne_nil _ _ _ (by simp)]
      intro hx
      rw [List.append_eq_nil, List.append_eq_nil] at hx
      exact h x (by simp) hx.1.1

theorem joinCL_head?_first (sep x : List Char) (xs : List (List Char)) (hx : x ≠ []) :
    (joinCL sep (x :: xs)).head? = x.head? := by
  cases xs with
  | nil => rfl
  | cons y ys =>
    rw [joinCL_cons_of_ne_nil _ _ _ (by simp), List.append_assoc]
    exact List.head?_append_of_ne_nil _ hx

theorem joinCL_getLast?_mem (sep : List Char) (xs : List (List Char)) (hne : xs ≠ [])
    (h : ∀ l ∈ xs, l ≠ []) : ∃ b ∈ xs, (joinCL sep xs).getLast? = b.getLast? := by
  induction xs with
  | nil => exact absurd rfl hne
  | cons x ys ih =>
    cases ys with
    | nil => exact ⟨x, by simp, rfl⟩
    | cons y ys2 =>
      obtain ⟨b, hb, hbeq⟩ := ih (by simp) (fun l hl => h l (by simp [hl]))
      refine ⟨b, by simp [hb], ?_⟩
      rw [joinCL_cons_of_ne_nil _ _ _ (by simp),
        List.getLast?_append_of_ne_nil _
          (joinCL_ne_nil sep (y :: ys2) (by simp) (fun l hl => h l (by simp [hl]))), hbeq]

theorem twoNL_infix_append : ∀ (a b : List Char), (['\n', '\n'] <:+: a ++ b) →
    (['\n', '\n'] <:+: a) ∨ (['\n', '\n'] <:+: b) ∨
      (a.getLast? = some '\n' ∧ b.head? = some '\n') := by
  intro a
  induction a with
  | nil =>
    intro b h
    exact Or.inr (Or.inl (by simpa using h))
  | cons c a2 ih =>
    intro b h
    rw [List.cons_append, List.infix_cons_iff] at h
    rcases h with hpre | hinf
    · rw [List.cons_prefix_cons] at hpre
      obtain ⟨hc, hpre2⟩ := hpre
      cases a2 with
      | nil =>
        right
        right
        obtain ⟨t, ht⟩ := hpre2
        rw [List.nil_append] at ht
        exact ⟨by simp [← hc], by rw [← ht]; rfl⟩
      | cons d a3 =>
        obtain ⟨t, ht⟩ := hpre2
        rw [List.cons_append] at ht
        have hd : d = '\n' := by
          have := ht
          injection this with h1 h2
          exact h1.symm
        left
        exact ⟨[], a3, by rw [← hc, hd]; rfl⟩
    · rcases ih b hinf with h1 | h2 | h3
      · exact Or.inl (List.infix_cons h1)
      · exact Or.inr (Or.inl h2)
      · refine Or.inr (Or.inr ⟨?_, h3.2⟩)
        cases a2 with
        | nil => simp at h3
        | cons d a3 =>
          rw [List.getLast?_cons_cons]
          exact h3.1

theorem no_twoNL_join (lines : List (List Char)) (hne : lines ≠ [])
    (h : ∀ l ∈ lines, l ≠ [] ∧ '\n' ∉ l) :
    ¬ (['\n', '\n'] <:+: joinCL ['\n'] lines) := by
  induction lines with
  | nil => exact absurd rfl hne
  | cons x ys ih =>
    cases ys with
    | nil =>
      intro hinf
      exact (h x (by simp)).2 (hinf.sublist.subset (by simp))
    | cons y ys2 =>
      intro hinf
      rw [joinCL_cons_of_ne_nil _ _ _ (by simp), List.append_assoc] at hinf
      rcases twoNL_infix_append x (['\n'] ++ joinCL ['\n'] (y :: ys2)) hinf with h1 | h2 | h3
      · exact (h x (by simp)).2 (h1.sublist.subset (by simp))
      · rw [show (['\n'] : List Char) ++ joinCL ['\n'] (y :: ys2) =
          '\n' :: joinCL ['\n'] (y :: ys2) from rfl, List.infix_cons_iff] at h2
        rcases h2 with hpre | hinf2
        · rw [List.cons_prefix_cons] at hpre
          obtain ⟨_, hpre2⟩ := hpre
          obtain ⟨t, ht⟩ := hpre2
          have hhd : (joinCL ['\n'] (y :: ys2)).head? = some '\n' := by
            rw [← ht]
            rfl
          rw [joinCL_head?_first ['\n'] y ys2 (h y (by simp)).1] at hhd
          exact (h y (by simp)).2 (List.mem_of_mem_head? (show '\n' ∈ y.head? from by
            rw [hhd]; rfl))
        · exact ih (by simp) (fun l hl => h l (by simp [hl])) hinf2
      · exact (h x (by simp)).2 (List.mem_of_mem_getLast? (show '\n' ∈ x.getLast? from by
          rw [h3.1]; rfl))

theorem recordLines_ne_nil (r : Fields) (hg : GoodFieldsB r = true) (hne : r ≠ .nil) :
    recordLines r ≠ [] := by
  cases r with
  | nil => exact absurd rfl hne
  | cons k v rest =>
    rw [recordLines_eq_scalar k v rest (goodFields_parts hg).2.1]
    simp

theorem encodeRecord_block_facts (r : Fields) (hg : GoodFieldsB r = true) (hne : r ≠ .nil) :
    encodeRecord r ≠ [] ∧
    ¬ (['\n', '\n'] <:+: encodeRecord r) ∧
    pyIsSpace ((encodeRecord r).headD ' ') = false ∧
    pyIsSpace ((encodeRecord r).getLastD ' ') = false := by
  have hlines := recordLines_flat_facts r hg
  have hlne : recordLines r ≠ [] := recordLines_ne_nil r hg hne
  refine ⟨joinCL_ne_nil _ _ hlne (fun l hl => (hlines l hl).1),
    no_twoNL_join (recordLines r) hlne (fun l hl => ⟨(hlines l hl).1, (hlines l hl).2.1⟩),
    ?_, ?_⟩
  · cases hrl : recordLines r with
    | nil => exact absurd hrl hlne
    | cons l0 ls =>
      have hl0 : l0 ∈ recordLines r := by rw [hrl]; simp
      have hh := joinCL_head?_first ['\n'] l0 ls (hlines l0 hl0).1
      rw [encodeRecord, hrl, List.headD_eq_head?, hh, ← List.headD_eq_head?]
      exact (hlines l0 hl0).2.2.1
  · obtain ⟨b, hb, hbeq⟩ :=
      joinCL_getLast?_mem ['\n'] (recordLines r) hlne (fun l hl => (hlines l hl).1)
    rw [encodeRecord, List.getLastD_eq_getLast?, hbeq, ← List.getLastD_eq_getLast?]
    exact (hlines b hb).2.2.2.1

theorem wfRecord_parts {r : Fields} (h : WFRecordB r = true) :
    r ≠ .nil ∧ GoodFieldsB r = true := by
  simp only [WFRecordB, Bool.and_eq_true, Bool.not_eq_true'] at h
  refine ⟨?_, h.2⟩
  cases r with
  | nil => simp [Fields.isEmpty] at h
  | cons k v rest => simp

theorem parseChunk_encodeRecord (r : Fields) (h : WFRecordB r = true) :
    parseChunk (encodeRecord r) = r := by
  obtain ⟨hne, hg⟩ := wfRecord_parts h
  obtain ⟨hbne, hnn, hhd, hlast⟩ := encodeRecord_block_facts r hg hne
  have hstrip : stripCL (encodeRecord r) = encodeRecord r :=
    stripCL_eq_self_headD hbne hhd hlast
  have hlines := recordLines_flat_facts r hg
  have hlne : recordLines r ≠ [] := recordLines_ne_nil r hg hne
  have hsplit : splitOnCL ['\n'] (stripCL (encodeRecord r)) = recordLines r := by
    rw [hstrip, encodeRecord]
    exact splitOn_joinCL_NL _ hlne (fun l hl => (hlines l hl).2.1)
  rw [parseChunk, hsplit, parse_lines]
  have href : refIndent (recordLines r) 0 = 0 := by
    cases hrl : recordLines r with
    | nil => exact absurd hrl hlne
    | cons l0 ls =>
      have hl0 : l0 ∈ recordLines r := by rw [hrl]; simp
      rw [refIndent, dif_pos (by simp)]
      simpa using (hlines l0 hl0).2.2.2.2
  rw [href]
  rw [parseFlat r ((recordLines r).length + 1) .nil hg
    (by intro k2 _ hx; simp [Fields.keys] at hx)
    (by rw [recordLines_length_flat r hg])]
  rfl

theorem flat_roundtrip (d : List Fields) (h : WFDatasetB d = true) :
    toon_to_dict (dict_to_toon d) = d := by
  cases d with
  | nil => decide
  | cons r rs =>
    have hwf : ∀ x ∈ r :: rs, WFRecordB x = true := List.all_eq_true.mp h
    have hparts : ∀ x ∈ r :: rs, x ≠ .nil ∧ GoodFieldsB x = true :=
      fun x hx => wfRecord_parts (hwf x hx)
    have hbf : ∀ b ∈ (r :: rs).map encodeRecord,
        b ≠ [] ∧ ¬ (['\n', '\n'] <:+: b) ∧ pyIsSpace (b.headD ' ') = false ∧
        pyIsSpace (b.getLastD ' ') = false := by
      intro b hb
      obtain ⟨x, hx, rfl⟩ := List.mem_map.mp hb
      exact encodeRecord_block_facts x (hparts x hx).2 (hparts x hx).1
    have hstrip : stripCL (dict_to_toon (r :: rs)) = dict_to_toon (r :: rs) := by
      apply stripCL_eq_self_headD
      · exact joinCL_ne_nil SEP _ (by simp) (fun b hb => (hbf b hb).1)
      · rw [show dict_to_toon (r :: rs) =
          joinCL SEP (encodeRecord r :: rs.map encodeRecord) from rfl]
        rw [List.headD_eq_head?,
          joinCL_head?_first SEP _ _ (hbf (encodeRecord r) (by simp)).1,
          ← List.headD_eq_head?]
        exact (hbf (encodeRecord r) (by simp)).2.2.1
      · obtain ⟨b, hb, hbeq⟩ := joinCL_getLast?_mem SEP ((r :: rs).map encodeRecord)
          (by simp) (fun b hb => (hbf b hb).1)
        rw [show dict_to_toon (r :: rs) = joinCL SEP ((r :: rs).map encodeRecord) from rfl]
        rw [List.getLastD_eq_getLast?, hbeq, ← List.getLastD_eq_getLast?]
        exact (hbf b hb).2.2.2
    rw [toon_to_dict, hstrip]
    rw [show dict_to_toon (r :: rs) = joinCL SEP ((r :: rs).map encodeRecord) from rfl]
    rw [splitOn_joinCL_SEP ((r :: rs).map encodeRecord) (by simp) (by
      intro b hb
      refine ⟨(hbf b hb).2.1, ?_⟩
      intro hx
      have hws : pyIsSpace (b.getLastD ' ') = true := by
        rw [List.getLastD_eq_getLast?, hx]
        rfl
      rw [(hbf b hb).2.2.2] at hws
      exact Bool.false_ne_true hws)]
    rw [List.map_map]
    have hmapeq : (r :: rs).map (parseChunk ∘ encodeRecord) = r :: rs := by
      have h2 : (r :: rs).map (parseChunk ∘ encodeRecord) = (r :: rs).map id :=
        List.map_congr_left (fun x hx => parseChunk_encodeRecord x (hwf x hx))
      rw [h2, List.map_id]
    rw [hmapeq]
    apply List.filter_eq_self.mpr
    intro x hx
    cases x with
    | nil => exact absurd rfl (hparts _ hx).1
    | cons k v rest => rfl

/- Counting occurrences of the record separator (claim C5 support). -/

theorem sepOcc_cons (c : Char) (s : List Char) :
    sepOccurrences (c :: s) =
      (if SEP.isPrefixOf (c :: s) then [0] else []) ++ (sepOccurrences s).map (· + 1) := by
  rw [sepOccurrences, List.length_cons, List.range_succ_eq_map, List.filter_cons]
  have hmap : (List.map Nat.succ (List.range s.length)).filter
      (fun p => SEP.isPrefixOf ((c :: s).drop p)) =
      ((List.range s.length).filter (fun p => SEP.isPrefixOf (s.drop p))).map Nat.succ := by
    rw [List.filter_map]
    congr 1
  rw [hmap]
  by_cases hp : SEP.isPrefixOf ((c :: s).drop 0) = true
  · rw [if_pos hp]
    rw [if_pos (by simpa using hp)]
    rw [sepOccurrences]
    simp [Nat.succ_eq_add_one]
  · rw [if_neg hp]
    rw [if_neg (by simpa using hp)]
    rw [sepOccurrences]
    simp [Nat.succ_eq_add_one]

theorem sepOcc_no_twoNL (s : List Char) (h : ¬ (['\n', '\n'] <:+: s)) :
    sepOccurrences s = [] := by
  induction s with
  | nil => rfl
  | cons c s2 ih =>
    rw [sepOcc_cons]
    have hpre : SEP.isPrefixOf (c :: s2) = false := by
      rw [← Bool.not_eq_true, isPrefixOfP]
      intro hp
      exact h (((show (['\n', '\n'] : List Char) <+: SEP by decide).trans hp).isInfix)
    rw [hpre]
    simp [ih (fun hx => h (List.infix_cons hx))]

theorem sep_not_prefix_first {c : Char} (rest : List Char) (hc : c ≠ '\n') :
    SEP.isPrefixOf (c :: rest) = false := by
  rw [← Bool.not_eq_true, isPrefixOfP]
  intro hp
  rw [show SEP = '\n' :: ('\n' :: cl "--------\n\n") from rfl, List.cons_prefix_cons] at hp
  exact hc hp.1.symm

theorem sep_not_prefix_second {c d : Char} (rest : List Char) (hd : d ≠ '\n') :
    SEP.isPrefixOf (c :: d :: rest) = false := by
  rw [← Bool.not_eq_true, isPrefixOfP]
  intro hp
  rw [show SEP = '\n' :: ('\n' :: cl "--------\n\n") from rfl, List.cons_prefix_cons] at hp
  obtain ⟨_, hp2⟩ := hp
  rw [List.cons_prefix_cons] at hp2
  exact hd hp2.1.symm

theorem sepOcc_septail (b2 : List Char) (h2 : ¬ (['\n', '\n'] <:+: b2)) :
    sepOccurrences (cl "\n--------\n\n" ++ b2) = [] := by
  have h11 : sepOccurrences ('\n' :: b2) = [] := by
    rw [sepOcc_cons]
    have hpre : SEP.isPrefixOf ('\n' :: b2) = false := by
      rw [← Bool.not_eq_true, isPrefixOfP]
      intro hp
      rw [show SEP = '\n' :: cl "\n--------\n\n" from rfl, List.cons_prefix_cons] at hp
      obtain ⟨t, ht⟩ := hp.2
      exact h2 ⟨cl "\n--------", t, by rw [← ht]; rfl⟩
    rw [hpre]
    simp [sepOcc_no_twoNL b2 h2]
  have h10 : sepOccurrences ('\n' :: '\n' :: b2) = [] := by
    rw [sepOcc_cons]
    have hpre : SEP.isPrefixOf ('\n' :: '\n' :: b2) = false := by
      rw [← Bool.not_eq_true, isPrefixOfP]
      intro hp
      rw [show SEP = '\n' :: ('\n' :: cl "--------\n\n") from rfl,
        List.cons_prefix_cons] at hp
      obtain ⟨_, hp2⟩ := hp
      rw [List.cons_prefix_cons] at hp2
      obtain ⟨t, ht⟩ := hp2.2
      exact h2 ⟨cl "--------", t, by rw [← ht]; rfl⟩
    rw [hpre]
    simp [h11]
  have h9 : sepOccurrences ('-' :: '\n' :: '\n' :: b2) = [] := by
    rw [sepOcc_cons, sep_not_prefix_first _ (by decide)]
    simp [h10]
  have h8 : sepOccurrences ('-' :: '-' :: '\n' :: '\n' :: b2) = [] := by
    rw [sepOcc_cons, sep_not_prefix_first _ (by decide)]
    simp [h9]
  have h7 : sepOccurrences ('-' :: '-' :: '-' :: '\n' :: '\n' :: b2) = [] := by
    rw [sepOcc_cons, sep_not_prefix_first _ (by decide)]
    simp [h8]
  have h6 : sepOccurrences ('-' :: '-' :: '-' :: '-' :: '\n' :: '\n' :: b2) = [] := by
    rw [sepOcc_cons, sep_not_prefix_first _ (by decide)]
    simp [h7]
  have h5 : sepOccurrences ('-' :: '-' :: '-' :: '-' :: '-' :: '\n' :: '\n' :: b2) = [] := by
    rw [sepOcc_cons, sep_not_prefix_first _ (by decide)]
    simp [h6]
  have h4 : sepOccurrences
      ('-' :: '-' :: '-' :: '-' :: '-' :: '-' :: '\n' :: '\n' :: b2) = [] := by
    rw [sepOcc_cons, sep_not_prefix_first _ (by decide)]
    simp [h5]
  have h3 : sepOccurrences
      ('-' :: '-' :: '-' :: '-' :: '-' :: '-' :: '-' :: '\n' :: '\n' :: b2) = [] := by
    rw [sepOcc_cons, sep_not_prefix_first _ (by decide)]
    simp [h4]
  have h1 : sepOccurrences
      ('-' :: '-' :: '-' :: '-' :: '-' :: '-' :: '-' :: '-' :: '\n' :: '\n' :: b2) = [] := by
    rw [sepOcc_cons, sep_not_prefix_first _ (by decide)]
    simp [h3]
  show sepOccurrences
    ('\n' :: '-' :: '-' :: '-' :: '-' :: '-' :: '-' :: '-' :: '-' :: '\n' :: '\n' :: b2) = []
  rw [sepOcc_cons, sep_not_prefix_second _ (by decide)]
  simp [h1]

theorem sepOcc_between (b1 b2 : List Char) (h1 : ¬ (['\n', '\n'] <:+: b1))
    (h2 : ¬ (['\n', '\n'] <:+: b2)) :
    sepOccurrences (b1 ++ (SEP ++ b2)) = [b1.length] := by
  induction b1 with
  | nil =>
    rw [List.nil_append, show SEP ++ b2 = '\n' :: (cl "\n--------\n\n" ++ b2) from rfl,
      sepOcc_cons]
    have hpre : SEP.isPrefixOf ('\n' :: (cl "\n--------\n\n" ++ b2)) = true := by
      rw [isPrefixOfP]
      exact ⟨b2, rfl⟩
    rw [hpre]
    simp [sepOcc_septail b2 h2]
  | cons c b1' ih =>
    rw [List.cons_append, sepOcc_cons]
    have hpre : SEP.isPrefixOf (c :: (b1' ++ (SEP ++ b2))) = false := by
      rw [← Bool.not_eq_true, isPrefixOfP]
      intro hp
      rw [show SEP = '\n' :: ('\n' :: cl "--------\n\n") from rfl,
        List.cons_prefix_cons] at hp
      obtain ⟨hc, hp2⟩ := hp
      cases b1' with
      | nil =>
        have hp2b : '\n' :: cl "--------\n\n" <+:
            '\n' :: ('\n' :: (cl "--------\n\n" ++ b2)) := by
          rw [List.nil_append] at hp2
          exact hp2
        rw [List.cons_prefix_cons] at hp2b
        obtain ⟨_, hp3⟩ := hp2b
        obtain ⟨t, ht⟩ := hp3
        injection (show ('-' : Char) :: (cl "-------\n\n" ++ t) =
          '\n' :: (cl "--------\n\n" ++ b2) from ht) with hx _
        exact absurd hx (by decide)
      | cons d b1'' =>
        rw [List.cons_append, List.cons_prefix_cons] at hp2
        obtain ⟨hd, _⟩ := hp2
        exact h1 ⟨[], b1'', by rw [← hc, ← hd]; rfl⟩
    rw [hpre]
    rw [ih (fun hx => h1 (List.infix_cons hx))]
    simp

/- Rendered blocks of newline-free records are well shaped. -/

theorem line_goodBlock {l : List Char} (hne : l ≠ []) (hnl : '\n' ∉ l) : GoodBlockStr l := by
  refine ⟨hne, ?_, ?_, ?_⟩
  · intro hx
    exact hnl (hx.sublist.subset (by simp))
  · intro hx
    exact hnl (List.mem_of_mem_head? (show '\n' ∈ l.head? from by rw [hx]; rfl))
  · intro hx
    exact hnl (List.mem_of_mem_getLast? (show '\n' ∈ l.getLast? from by rw [hx]; rfl))

theorem goodBlock_append_nl (a b : List Char) (ha : GoodBlockStr a) (hb : GoodBlockStr b) :
    GoodBlockStr (a ++ '\n' :: b) := by
  obtain ⟨hane, hainf, hah, hal⟩ := ha
  obtain ⟨hbne, hbinf, hbh, hbl⟩ := hb
  refine ⟨by simp, ?_, ?_, ?_⟩
  · intro hx
    rcases twoNL_infix_append a ('\n' :: b) hx with h1 | h2 | h3
    · exact hainf h1
    · rw [List.infix_cons_iff] at h2
      rcases h2 with hpre | hinf2
      · rw [List.cons_prefix_cons] at hpre
        obtain ⟨t, ht⟩ := hpre.2
        exact hbh (by rw [← ht]; rfl)
      · exact hbinf hinf2
    · exact hal h3.1
  · rw [List.head?_append_of_ne_nil _ hane]
    exact hah
  · rw [List.getLast?_append_of_ne_nil _ (by simp)]
    rw [show ('\n' :: b) = ['\n'] ++ b from rfl, List.getLast?_append_of_ne_nil _ hbne]
    exact hbl

theorem goodBlock_join (xs : List (List Char)) (hne : xs ≠ [])
    (h : ∀ x ∈ xs, GoodBlockStr x) : GoodBlockStr (joinCL ['\n'] xs) := by
  induction xs with
  | nil => exact absurd rfl hne
  | cons x ys ih =>
    cases ys with
    | nil => exact h x (by simp)
    | cons y ys2 =>
      rw [joinCL_cons_of_ne_nil _ _ _ (by simp), List.append_assoc]
      exact goodBlock_append_nl x _ (h x (by simp))
        (ih (by simp) (fun l hl => h l (by simp [hl])))

theorem noNL_scalar_token (v : Value) (ind : Nat) (h : NoNLVal v = true)
    (hobj : ∀ g, v ≠ .obj g) : '\n' ∉ format_value v ind := by
  cases v with
  | str s =>
    simp only [NoNLVal, Bool.not_eq_true', decide_eq_false_iff_not] at h
    exact h
  | int n =>
    intro hm
    exact absurd (fmtNat_all_digit n _ hm) (by decide)
  | bool b =>
    cases b with
    | true => exact (by decide : '\n' ∉ cl "true")
    | false => exact (by decide : '\n' ∉ cl "false")
  | list es =>
    intro hm
    rcases List.mem_cons.mp hm with hc | hc
    · simp at hc
    · rcases List.mem_append.mp hc with hj | hb
      · rcases mem_joinCL COMSP es hj with hs | ⟨e, he, hce⟩
        · simp [COMSP] at hs
        · have hg := List.all_eq_true.mp h e he
          simp only [Bool.not_eq_true', decide_eq_false_iff_not] at hg
          exact hg hce
      · simp at hb
  | obj fs => exact absurd rfl (hobj fs)

theorem objLines_ne_nil (fs : Fields) (ind : Nat) (hne : fs ≠ .nil) :
    objLines fs ind ≠ [] := by
  cases fs with
  | nil => exact absurd rfl hne
  | cons k v rest =>
    cases v with
    | obj g => simp [objLines]
    | str s => simp [objLines]
    | int n => simp [objLines]
    | bool b => simp [objLines]
    | list es => simp [objLines]

theorem scalar_objLine_goodBlock (k : List Char) (v : Value) (ind : Nat) (rest : Fields)
    (hk : '\n' ∉ k) (hv : NoNLVal v = true) (hobj : ∀ g, v ≠ .obj g) :
    GoodBlockStr (spaceCL ind ++ cl "  " ++ k ++ COLSP ++ format_value v (ind + 1)) := by
  apply line_goodBlock (by simp [cl])
  intro hm
  rcases List.mem_append.mp hm with hm1 | hm2
  · rcases List.mem_append.mp hm1 with hm3 | hm4
    · rcases List.mem_append.mp hm3 with hm5 | hm6
      · rcases List.mem_append.mp hm5 with hm7 | hm8
        · rw [spaceCL, List.mem_replicate] at hm7
          exact absurd hm7.2 (by decide)
        · simp [cl] at hm8
      · exact hk hm6
    · simp [COLSP] at hm4
  · exact noNL_scalar_token v (ind + 1) hv hobj hm2

mutual
theorem noNLVal_block : ∀ (v : Value) (ind : Nat), NoNLVal v = true →
    (∃ g, v = Value.obj g) → GoodBlockStr (format_value v ind)
  | .obj g, ind, h, _ => by
    have hcomp : g.isEmpty = false ∧ NoNLFields g = true := by
      simp only [NoNLVal, Bool.and_eq_true, Bool.not_eq_true'] at h
      exact h
    have hgne : g ≠ .nil := by
      intro hx
      rw [hx] at hcomp
      simp [Fields.isEmpty] at hcomp
    show GoodBlockStr (joinCL ['\n'] (objLines g ind))
    exact goodBlock_join _ (objLines_ne_nil g ind hgne)
      (fun l hl => noNLFields_lines g ind hcomp.2 l hl)
  | .str s, _, _, hex => absurd hex (by simp)
  | .int n, _, _, hex => absurd hex (by simp)
  | .bool b, _, _, hex => absurd hex (by simp)
  | .list es, _, _, hex => absurd hex (by simp)

theorem noNLFields_lines : ∀ (fs : Fields) (ind : Nat), NoNLFields fs = true →
    ∀ l ∈ objLines fs ind, GoodBlockStr l
  | .nil, ind, _, l, hl => by simp [objLines] at hl
  | .cons k v rest, ind, h, l, hl => by
    have hcomp : ('\n' ∉ k) ∧ NoNLVal v = true ∧ NoNLFields rest = true := by
      simp only [NoNLFields, Bool.and_eq_true, Bool.not_eq_true',
        decide_eq_false_iff_not] at h
      exact ⟨h.1.1, h.1.2, h.2⟩
    obtain ⟨hk, hv, hrest⟩ := hcomp
    cases v with
    | obj g =>
      rw [show objLines (.cons k (.obj g) rest) ind =
        (spaceCL ind ++ cl "  " ++ k ++ [':']) :: format_value (.obj g) (ind + 1) ::
          objLines rest ind from rfl] at hl
      rcases List.mem_cons.mp hl with rfl | hl2
      · apply line_goodBlock (by simp)
        intro hm
        rcases List.mem_append.mp hm with hm1 | hm2
        · rcases List.mem_append.mp hm1 with hm3 | hm4
          · rcases List.mem_append.mp hm3 with hm5 | hm6
            · rw [spaceCL, List.mem_replicate] at hm5
              exact absurd hm5.2 (by decide)
            · simp [cl] at hm6
          · exact hk hm4
        · simp at hm2
      · rcases List.mem_cons.mp hl2 with rfl | hl3
        · exact noNLVal_block (.obj g) (ind + 1) hv ⟨g, rfl⟩
        · exact noNLFields_lines rest ind hrest l hl3
    | str s =>
      rw [show objLines (.cons k (.str s) rest) ind =
        (spaceCL ind ++ cl "  " ++ k ++ COLSP ++ format_value (.str s) (ind + 1)) ::
          objLines rest ind from rfl] at hl
      rcases List.mem_cons.mp hl with rfl | hl2
      · exact scalar_objLine_goodBlock k (.str s) ind rest hk hv (fun g => by simp)
      · exact noNLFields_lines rest ind hrest l hl2
    | int n =>
      rw [show objLines (.cons k (.int n) rest) ind =
        (spaceCL ind ++ cl "  " ++ k ++ COLSP ++ format_value (.int n) (ind + 1)) ::
          objLines rest ind from rfl] at hl
      rcases List.mem_cons.mp hl with rfl | hl2
      · exact scalar_objLine_goodBlock k (.int n) ind rest hk hv (fun g => by simp)
      · exact noNLFields_lines rest ind hrest l hl2
    | bool b =>
      rw [show objLines (.cons k (.bool b) rest) ind =
        (spaceCL ind ++ cl "  " ++ k ++ COLSP ++ format_value (.bool b) (ind + 1)) ::
          objLines rest ind from rfl] at hl
      rcases List.mem_cons.mp hl with rfl | hl2
      · exact scalar_objLine_goodBlock k (.bool b) ind rest hk hv (fun g => by simp)
      · exact noNLFields_lines rest ind hrest l hl2
    | list es =>
      rw [show objLines (.cons k (.list es) rest) ind =
        (spaceCL ind ++ cl "  " ++ k ++ COLSP ++ format_value (.list es) (ind + 1)) ::
          objLines rest ind from rfl] at hl
      rcases List.mem_cons.mp hl with rfl | hl2
      · exact scalar_objLine_goodBlock k (.list es) ind rest hk hv (fun g => by simp)
      · exact noNLFields_lines rest ind hrest l hl2
end


theorem noNL_recordLines : ∀ (r : Fields), NoNLFields r = true →
    ∀ l ∈ recordLines r, GoodBlockStr l
  | .nil, _, l, hl => by simp [recordLines] at hl
  | .cons k v rest, h, l, hl => by
    have hcomp : ('\n' ∉ k) ∧ NoNLVal v = true ∧ NoNLFields rest = true := by
      simp only [NoNLFields, Bool.and_eq_true, Bool.not_eq_true',
        decide_eq_false_iff_not] at h
      exact ⟨h.1.1, h.1.2, h.2⟩
    obtain ⟨hk, hv, hrest⟩ := hcomp
    cases v with
    | obj g =>
      rw [show recordLines (.cons k (.obj g) rest) =
        (k ++ [':']) :: format_value (.obj g) 0 :: recordLines rest from rfl] at hl
      rcases List.mem_cons.mp hl with rfl | hl2
      · apply line_goodBlock (by simp)
        intro hm
        rcases List.mem_append.mp hm with hm1 | hm2
        · exact hk hm1
        · simp at hm2
      · rcases List.mem_cons.mp hl2 with rfl | hl3
        · exact noNLVal_block (.obj g) 0 hv ⟨g, rfl⟩
        · exact noNL_recordLines rest hrest l hl3
    | str s =>
      rcases List.mem_cons.mp hl with rfl | hl2
      · apply line_goodBlock (by simp [COLSP])
        intro hm
        rcases List.mem_append.mp hm with hm1 | hm2
        · rcases List.mem_append.mp hm1 with hm3 | hm4
          · exact hk hm3
          · simp [COLSP] at hm4
        · exact noNL_scalar_token (.str s) 0 hv (fun g => by simp) hm2
      · exact noNL_recordLines rest hrest l hl2
    | int n =>
      rcases List.mem_cons.mp hl with rfl | hl2
      · apply line_goodBlock (by simp [COLSP])
        intro hm
        rcases List.mem_append.mp hm with hm1 | hm2
        · rcases List.mem_append.mp hm1 with hm3 | hm4
          · exact hk hm3
          · simp [COLSP] at hm4
        · exact noNL_scalar_token (.int n) 0 hv (fun g => by simp) hm2
      · exact noNL_recordLines rest hrest l hl2
    | bool b =>
      rcases List.mem_cons.mp hl with rfl | hl2
      · apply line_goodBlock (by simp [COLSP])
        intro hm
        rcases List.mem_append.mp hm with hm1 | hm2
        · rcases List.mem_append.mp hm1 with hm3 | hm4
          · exact hk hm3
          · simp [COLSP] at hm4
        · exact noNL_scalar_token (.bool b) 0 hv (fun g => by simp) hm2
      · exact noNL_recordLines rest hrest l hl2
    | list es =>
      rcases List.mem_cons.mp hl with rfl | hl2
      · apply line_goodBlock (by simp [COLSP])
        intro hm
        rcases List.mem_append.mp hm with hm1 | hm2
        · rcases List.mem_append.mp hm1 with hm3 | hm4
          · exact hk hm3
          · simp [COLSP] at hm4
        · exact noNL_scalar_token (.list es) 0 hv (fun g => by simp) hm2
      · exact noNL_recordLines rest hrest l hl2

theorem noNL_encodeRecord (r : Fields) (h : NoNLFields r = true) :
    ¬ (['\n', '\n'] <:+: encodeRecord r) := by
  cases r with
  | nil =>
    rw [encodeRecord]
    simp [recordLines, joinCL]
  | cons k v rest =>
    have hne : recordLines (.cons k v rest) ≠ [] := by
      cases v <;> simp [recordLines]
    exact (goodBlock_join _ hne (noNL_recordLines _ h)).2.1

/- Stopping behaviour of the block parser (claim C7 support). -/

theorem parseLoop_stop (fuel : Nat) : ∀ lines cur acc i r j, i ≤ lines.length →
    parseLoop fuel lines cur acc i = some (r, j) →
    j ≤ lines.length ∧ ∀ hj : j < lines.length,
      (stripCL (lines.get ⟨j, hj⟩)).isEmpty = false ∧ indentOf (lines.get ⟨j, hj⟩) < cur := by
  induction fuel with
  | zero =>
    intro lines cur acc i r j _ h
    simp [parseLoop] at h
  | succ fuel ih =>
    intro lines cur acc i r j hi h
    by_cases hb : i < lines.length
    · rw [parseLoop_succ fuel lines cur acc i hb] at h
      by_cases h1 : (stripCL lines[i]).isEmpty = true
      · rw [if_pos h1] at h
        exact ih lines cur acc (i + 1) r j (by omega) h
      · rw [if_neg h1] at h
        by_cases h2 : indentOf lines[i] < cur
        · rw [if_pos h2] at h
          simp only [Option.some.injEq, Prod.mk.injEq] at h
          obtain ⟨-, rfl⟩ := h
          exact ⟨by omega, fun _ => ⟨by simpa using h1, h2⟩⟩
        · rw [if_neg h2] at h
          by_cases h3 : cur < indentOf lines[i]
          · rw [if_pos h3] at h
            exact ih lines cur acc (i + 1) r j (by omega) h
          · rw [if_neg h3] at h
            cases hsp : splitFirstCL COLSP (stripCL lines[i]) with
            | some kv =>
              obtain ⟨k, v⟩ := kv
              simp only [hsp] at h
              exact ih lines cur _ (i + 1) r j (by omega) h
            | none =>
              simp only [hsp] at h
              by_cases h4 : (cl ":").isSuffixOf (stripCL lines[i]) = true
              · rw [if_pos h4] at h
                cases hnest : parseLoop fuel lines (refIndent lines (i + 1)) Fields.nil (i + 1)
                  with
                | none =>
                  rw [hnest] at h
                  exact absurd h (by simp)
                | some p =>
                  obtain ⟨nested, nexti⟩ := p
                  rw [hnest] at h
                  have hxa := parseLoop_le fuel lines _ Fields.nil (i + 1) nested nexti hnest
                  exact ih lines cur _ nexti r j (hxa.2 (by omega)) h
              · rw [if_neg h4] at h
                exact ih lines cur acc (i + 1) r j (by omega) h
    · rw [parseLoop_succ_end fuel lines cur acc i hb] at h
      simp only [Option.some.injEq, Prod.mk.injEq] at h
      obtain ⟨-, rfl⟩ := h
      exact ⟨by omega, fun hlt => absurd hlt (by omega)⟩

theorem parseLoop_strict (fuel : Nat) (lines : List (List Char)) (acc : Fields) (i : Nat)
    (r : Fields) (j : Nat) (hb : i < lines.length)
    (h : parseLoop fuel lines (refIndent lines i) acc i = some (r, j)) : i < j := by
  cases fuel with
  | zero => simp [parseLoop] at h
  | succ fuel =>
    have hcur : refIndent lines i = indentOf lines[i] := by
      rw [refIndent, dif_pos hb]
    rw [parseLoop_succ fuel lines _ acc i hb] at h
    by_cases h1 : (stripCL lines[i]).isEmpty = true
    · rw [if_pos h1] at h
      have := parseLoop_le fuel lines _ acc (i + 1) r j h
      omega
    · rw [if_neg h1] at h
      rw [if_neg (by rw [hcur]; omega), if_neg (by rw [hcur]; omega)] at h
      cases hsp : splitFirstCL COLSP (stripCL lines[i]) with
      | some kv =>
        obtain ⟨k, v⟩ := kv
        simp only [hsp] at h
        have := parseLoop_le fuel lines _ _ (i + 1) r j h
        omega
      | none =>
        simp only [hsp] at h
        by_cases h4 : (cl ":").isSuffixOf (stripCL lines[i]) = true
        · rw [if_pos h4] at h
          cases hnest : parseLoop fuel lines (refIndent lines (i + 1)) Fields.nil (i + 1) with
          | none =>
            rw [hnest] at h
            exact absurd h (by simp)
          | some p =>
            obtain ⟨nested, nexti⟩ := p
            rw [hnest] at h
            have hxa := parseLoop_le fuel lines _ Fields.nil (i + 1) nested nexti hnest
            have hxb := parseLoop_le fuel lines _ _ nexti r j h
            omega
        · rw [if_neg h4] at h
          have := parseLoop_le fuel lines _ acc (i + 1) r j h
          omega

/- Case-insensitive booleans (claim C9 support). -/

theorem ws_toLower_fix {c : Char} (h : pyIsSpace c = true) : Char.toLower c = c := by
  simp only [pyIsSpace, Bool.or_eq_true, beq_iff_eq] at h
  rcases h with ((((rfl | rfl) | rfl) | rfl) | rfl) | rfl <;> decide

theorem parse_value_lower_true (t : List Char) (h : lowerCL t = cl "true") :
    parse_value t = .bool true := by
  have hlen : t.length = 4 := by
    have hx := congrArg List.length h
    simpa [lowerCL] using hx
  obtain ⟨c1, c2, c3, c4, rfl⟩ : ∃ a b c d, t = [a, b, c, d] := by
    cases t with
    | nil => simp at hlen
    | cons a t1 =>
      cases t1 with
      | nil => simp at hlen
      | cons b t2 =>
        cases t2 with
        | nil => simp at hlen
        | cons c t3 =>
          cases t3 with
          | nil => simp at hlen
          | cons d t4 =>
            cases t4 with
            | nil => exact ⟨a, b, c, d, rfl⟩
            | cons e t5 => simp at hlen
  have hco : Char.toLower c1 = 't' ∧ Char.toLower c2 = 'r' ∧ Char.toLower c3 = 'u' ∧
      Char.toLower c4 = 'e' := by
    have hx : [Char.toLower c1, Char.toLower c2, Char.toLower c3, Char.toLower c4] =
        ['t', 'r', 'u', 'e'] := h
    simpa using hx
  obtain ⟨hc1, hc2, hc3, hc4⟩ := hco
  have hws1 : pyIsSpace c1 = false := by
    cases hx : pyIsSpace c1 with
    | false => rfl
    | true =>
      exfalso
      rw [ws_toLower_fix hx] at hc1
      subst hc1
      exact absurd hx (by decide)
  have hws4 : pyIsSpace c4 = false := by
    cases hx : pyIsSpace c4 with
    | false => rfl
    | true =>
      exfalso
      rw [ws_toLower_fix hx] at hc4
      subst hc4
      exact absurd hx (by decide)
  have hs : stripCL [c1, c2, c3, c4] = [c1, c2, c3, c4] :=
    stripCL_eq_self_headD (by simp) (by simpa using hws1) (by exact hws4)
  have hbr : ((cl "[").isPrefixOf [c1, c2, c3, c4] &&
      (cl "]").isSuffixOf [c1, c2, c3, c4]) = false := by
    cases hx : (cl "[").isPrefixOf [c1, c2, c3, c4] with
    | false => rfl
    | true =>
      exfalso
      obtain ⟨tt, htt⟩ := isPrefixOfP.mp hx
      injection (show ('[' : Char) :: ([] ++ tt) = [c1, c2, c3, c4] from htt) with hx1 _
      rw [← hx1] at hc1
      exact absurd hc1 (by decide)
  rw [parse_value_of_strip_id _ hs, hbr]
  simp only [Bool.false_eq_true, if_false]
  rw [h]
  simp

theorem parse_value_lower_false (t : List Char) (h : lowerCL t = cl "false") :
    parse_value t = .bool false := by
  have hlen : t.length = 5 := by
    have hx := congrArg List.length h
    simpa [lowerCL] using hx
  obtain ⟨c1, c2, c3, c4, c5, rfl⟩ : ∃ a b c d e, t = [a, b, c, d, e] := by
    cases t with
    | nil => simp at hlen
    | cons a t1 =>
      cases t1 with
      | nil => simp at hlen
      | cons b t2 =>
        cases t2 with
        | nil => simp at hlen
        | cons c t3 =>
          cases t3 with
          | nil => simp at hlen
          | cons d t4 =>
            cases t4 with
            | nil => simp at hlen
            | cons e t5 =>
              cases t5 with
              | nil => exact ⟨a, b, c, d, e, rfl⟩
              | cons f t6 => simp at hlen
  have hco : Char.toLower c1 = 'f' ∧ Char.toLower c2 = 'a' ∧ Char.toLower c3 = 'l' ∧
      Char.toLower c4 = 's' ∧ Char.toLower c5 = 'e' := by
    have hx : [Char.toLower c1, Char.toLower c2, Char.toLower c3, Char.toLower c4,
        Char.toLower c5] = ['f', 'a', 'l', 's', 'e'] := h
    simpa using hx
  obtain ⟨hc1, hc2, hc3, hc4, hc5⟩ := hco
  have hws1 : pyIsSpace c1 = false := by
    cases hx : pyIsSpace c1 with
    | false => rfl
    | true =>
      exfalso
      rw [ws_toLower_fix hx] at hc1
      subst hc1
      exact absurd hx (by decide)
  have hws5 : pyIsSpace c5 = false := by
    cases hx : pyIsSpace c5 with
    | false => rfl
    | true =>
      exfalso
      rw [ws_toLower_fix hx] at hc5
      subst hc5
      exact absurd hx (by decide)
  have hs : stripCL [c1, c2, c3, c4, c5] = [c1, c2, c3, c4, c5] :=
    stripCL_eq_self_headD (by simp) (by simpa using hws1) (by exact hws5)
  have hbr : ((cl "[").isPrefixOf [c1, c2, c3, c4, c5] &&
      (cl "]").isSuffixOf [c1, c2, c3, c4, c5]) = false := by
    cases hx : (cl "[").isPrefixOf [c1, c2, c3, c4, c5] with
    | false => rfl
    | true =>
      exfalso
      obtain ⟨tt, htt⟩ := isPrefixOfP.mp hx
      injection (show ('[' : Char) :: ([] ++ tt) = [c1, c2, c3, c4, c5] from htt) with hx1 _
      rw [← hx1] at hc1
      exact absurd hc1 (by decide)
  rw [parse_value_of_strip_id _ hs, hbr]
  simp only [Bool.false_eq_true, if_false]
  rw [h]
  simp
  decide

/- The claims. -/

/-- C1 counterexample: the dataset holding one empty record contains only
String/Integer/Boolean/List fields (vacuously) and no tokens at all, yet
its round trip drops the record: decode (encode [empty]) = [], not [empty]. -/
theorem claim_C1_counterexample :
    toon_to_dict (dict_to_toon [Fields.nil]) ≠ [Fields.nil] := by decide

/-- C1 (amended): for every Dataset of non-empty records whose fields are
String/Integer/Boolean/List values with distinct well-formed keys and no
ambiguous tokens (WFDatasetB: keys non-empty, not starting with whitespace,
without newline or ": "; String values non-empty, without newline or
leading/trailing whitespace, not bracket-wrapped, not a casing of
true/false, not digit-only; list elements non-empty, without newline,
", " or leading/trailing whitespace), decode (encode d) = d field-for-field
with records and fields in their original order. -/
theorem claim_C1_roundtrip (d : List Fields) (h : WFDatasetB d = true) :
    toon_to_dict (dict_to_toon d) = d :=
  flat_roundtrip d h

/-- C1 witness: the round trip at a concrete well-formed dataset. -/
theorem claim_C1_witness :
    WFDatasetB [Fields.cons (cl "name") (Value.str (cl "Jenil"))
      (Fields.cons (cl "skills") (Value.list [cl "C#", cl ".NET"])
        (Fields.cons (cl "active") (Value.bool true) Fields.nil))] = true ∧
    toon_to_dict (dict_to_toon [Fields.cons (cl "name") (Value.str (cl "Jenil"))
      (Fields.cons (cl "skills") (Value.list [cl "C#", cl ".NET"])
        (Fields.cons (cl "active") (Value.bool true) Fields.nil))]) =
      [Fields.cons (cl "name") (Value.str (cl "Jenil"))
        (Fields.cons (cl "skills") (Value.list [cl "C#", cl ".NET"])
          (Fields.cons (cl "active") (Value.bool true) Fields.nil))] :=
  ⟨by decide, claim_C1_roundtrip _ (by decide)⟩

/-- C2: encoding then decoding the record mapping name to the String Jenil
and address to the Object with city the String X and zip the String 12345
reproduces name, then address as an Object with city the String X and zip
now the Integer 12345, in the original field order. -/
theorem claim_C2_nested_roundtrip :
    toon_to_dict (dict_to_toon [Fields.cons (cl "name") (Value.str (cl "Jenil"))
      (Fields.cons (cl "address") (Value.obj (Fields.cons (cl "city") (Value.str (cl "X"))
        (Fields.cons (cl "zip") (Value.str (cl "12345")) Fields.nil))) Fields.nil)]) =
    [Fields.cons (cl "name") (Value.str (cl "Jenil"))
      (Fields.cons (cl "address") (Value.obj (Fields.cons (cl "city") (Value.str (cl "X"))
        (Fields.cons (cl "zip") (Value.int 12345) Fields.nil))) Fields.nil)] := by
  decide

/-- C3: on a whitespace-stripped token, value inference classifies in
priority order bracket-wrapped list, then case-insensitive boolean, then
non-empty all-decimal-digit integer, else verbatim string; in particular
the token -5 stays a String and 007 becomes the Integer 7. -/
theorem claim_C3_value_inference :
    (∀ t : List Char, stripCL t = t →
      parse_value t =
        if (cl "[").isPrefixOf t && (cl "]").isSuffixOf t then
          Value.list (((splitOnCL COMSP ((t.drop 1).dropLast)).map stripCL).filter
            (fun x => !x.isEmpty))
        else if lowerCL t == cl "true" || lowerCL t == cl "false" then
          Value.bool (lowerCL t == cl "true")
        else if !t.isEmpty && t.all isDigitCh then Value.int (natOfDigits t)
        else Value.str t) ∧
    parse_value (cl "-5") = Value.str (cl "-5") ∧
    parse_value (cl "007") = Value.int 7 :=
  ⟨fun t ht => parse_value_of_strip_id t ht, by decide, by decide⟩

/-- C3 witness: the cascade applied to a concrete plain token. -/
theorem claim_C3_witness : parse_value (cl "ab") = Value.str (cl "ab") := by
  rw [claim_C3_value_inference.1 (cl "ab") (by decide)]
  decide

/-- C4: the skills list encodes to exactly the line
skills: [C#, .NET, Angular], that line decodes back to the same String
list, and in general a bracket-wrapped token is split on the literal ", ",
each piece trimmed, empty pieces dropped, with no further type inference. -/
theorem claim_C4_list_line :
    dict_to_toon [Fields.cons (cl "skills") (Value.list [cl "C#", cl ".NET", cl "Angular"])
      Fields.nil] = cl "skills: [C#, .NET, Angular]" ∧
    toon_to_dict (cl "skills: [C#, .NET, Angular]") =
      [Fields.cons (cl "skills") (Value.list [cl "C#", cl ".NET", cl "Angular"])
        Fields.nil] ∧
    parse_value (cl "[C#, .NET, Angular]") =
      Value.list [cl "C#", cl ".NET", cl "Angular"] ∧
    (∀ t : List Char, stripCL t = t → (cl "[").isPrefixOf t = true →
      (cl "]").isSuffixOf t = true →
      parse_value t =
        Value.list (((splitOnCL COMSP ((t.drop 1).dropLast)).map stripCL).filter
          (fun x => !x.isEmpty))) := by
  refine ⟨by decide, by decide, by decide, ?_⟩
  intro t h1 h2 h3
  rw [parse_value_of_strip_id t h1, h2, h3]
  simp

/-- C4 witness: the bracket rule applied to a concrete token. -/
theorem claim_C4_witness : parse_value (cl "[a, b]") = Value.list [cl "a", cl "b"] := by
  rw [claim_C4_list_line.2.2.2 (cl "[a, b]") (by decide) (by decide) (by decide)]
  decide

/-- C5 counterexample: a record whose String value is the separator text
itself makes the claim fail as stated: a one-record dataset whose encoding
contains an occurrence of the separator, and a two-record dataset whose
encoding contains two occurrences rather than exactly one. -/
theorem claim_C5_counterexample :
    sepOccurrences (dict_to_toon [Fields.cons (cl "a") (Value.str SEP) Fields.nil]) = [3] ∧
    (sepOccurrences (dict_to_toon [Fields.cons (cl "a") (Value.str SEP) Fields.nil,
      Fields.cons (cl "b") (Value.str (cl "x")) Fields.nil])).length = 2 := by
  decide

/-- C5 (amended): for every two-record Dataset whose keys, String values
and list elements contain no newline and whose Object values are non-empty
(NoNLFields), the encoding is exactly the first block, the separator, then
the second block, and the separator occurs at exactly one position, the end
of the first block; for every such one-record Dataset it occurs nowhere. -/
theorem claim_C5_separator :
    (∀ r1 r2 : Fields, NoNLFields r1 = true → NoNLFields r2 = true →
      dict_to_toon [r1, r2] = encodeRecord r1 ++ SEP ++ encodeRecord r2 ∧
      sepOccurrences (dict_to_toon [r1, r2]) = [(encodeRecord r1).length]) ∧
    (∀ r : Fields, NoNLFields r = true → sepOccurrences (dict_to_toon [r]) = []) := by
  constructor
  · intro r1 r2 h1 h2
    refine ⟨rfl, ?_⟩
    show sepOccurrences (joinCL SEP [encodeRecord r1, encodeRecord r2]) = _
    rw [show joinCL SEP [encodeRecord r1, encodeRecord r2] =
      encodeRecord r1 ++ (SEP ++ encodeRecord r2) from by
        rw [← List.append_assoc]
        rfl]
    exact sepOcc_between _ _ (noNL_encodeRecord r1 h1) (noNL_encodeRecord r2 h2)
  · intro r h
    show sepOccurrences (encodeRecord r) = []
    exact sepOcc_no_twoNL _ (noNL_encodeRecord r h)

/-- C5 witness: the separator position at a concrete two-record dataset. -/
theorem claim_C5_witness :
    NoNLFields (Fields.cons (cl "a") (Value.str (cl "x")) Fields.nil) = true ∧
    sepOccurrences (dict_to_toon [Fields.cons (cl "a") (Value.str (cl "x")) Fields.nil,
      Fields.cons (cl "b") (Value.bool true) Fields.nil]) =
      [(encodeRecord (Fields.cons (cl "a") (Value.str (cl "x")) Fields.nil)).length] :=
  ⟨by decide, (claim_C5_separator.1 (Fields.cons (cl "a") (Value.str (cl "x")) Fields.nil)
    (Fields.cons (cl "b") (Value.bool true) Fields.nil) (by decide) (by decide)).2⟩

/-- C6: the decoder never signals an error on malformed lines: within a
block, a non-blank line indented deeper than the reference indent is
skipped, a non-blank line at the reference indent that neither contains
": " nor ends with ":" is skipped, and a concrete text with both kinds of
malformed line decodes to the partial mapping of its well-formed lines. -/
theorem claim_C6_lenient_skip :
    (∀ (fuel : Nat) (lines : List (List Char)) (cur : Nat) (acc : Fields) (i : Nat)
      (h : i < lines.length),
      (stripCL lines[i]).isEmpty = false →
      cur < indentOf lines[i] →
      parseLoop (fuel + 1) lines cur acc i = parseLoop fuel lines cur acc (i + 1)) ∧
    (∀ (fuel : Nat) (lines : List (List Char)) (cur : Nat) (acc : Fields) (i : Nat)
      (h : i < lines.length),
      (stripCL lines[i]).isEmpty = false →
      indentOf lines[i] = cur →
      splitFirstCL COLSP (stripCL lines[i]) = none →
      (cl ":").isSuffixOf (stripCL lines[i]) = false →
      parseLoop (fuel + 1) lines cur acc i = parseLoop fuel lines cur acc (i + 1)) ∧
    toon_to_dict (cl "a: 1\n    x: 9\nmalformed\nb: 2") =
      [Fields.cons (cl "a") (Value.int 1)
        (Fields.cons (cl "b") (Value.int 2) Fields.nil)] := by
  refine ⟨?_, ?_, by decide⟩
  · intro fuel lines cur acc i h hblank hdeep
    rw [parseLoop_succ fuel lines cur acc i h]
    rw [if_neg (by simp [hblank]), if_neg (by omega), if_pos hdeep]
  · intro fuel lines cur acc i h hblank hind hsp hsuf
    rw [parseLoop_succ fuel lines cur acc i h]
    rw [if_neg (by simp [hblank]), if_neg (by omega), if_neg (by omega)]
    simp only [hsp]
    rw [if_neg (by simp [hsuf])]

/-- C6 witness: the skip rules applied at concrete malformed lines. -/
theorem claim_C6_witness :
    parseLoop 2 [cl "    x: 9"] 0 Fields.nil 0 = parseLoop 1 [cl "    x: 9"] 0 Fields.nil 1 ∧
    parseLoop 2 [cl "malformed"] 0 Fields.nil 0 =
      parseLoop 1 [cl "malformed"] 0 Fields.nil 1 :=
  ⟨claim_C6_lenient_skip.1 1 [cl "    x: 9"] 0 Fields.nil 0 (by decide) (by decide)
    (by decide),
   claim_C6_lenient_skip.2.1 1 [cl "malformed"] 0 Fields.nil 0 (by decide) (by decide)
    (by decide) (by decide) (by decide)⟩

/-- C7: the block parser terminates on every input: with fuel one more than
the number of lines it returns a result from any start index at most the
length; the returned next index never precedes the start, strictly exceeds
it when the start is in bounds, never exceeds the number of lines, and when
it stops before the end the unconsumed stopping line is non-blank with
leading-space count strictly below the reference indent. -/
theorem claim_C7_termination (lines : List (List Char)) (i : Nat)
    (hi : i ≤ lines.length) :
    (parseLoop (lines.length + 1) lines (refIndent lines i) Fields.nil i).isSome = true ∧
    i ≤ (parse_lines lines i).2 ∧
    (i < lines.length → i < (parse_lines lines i).2) ∧
    (parse_lines lines i).2 ≤ lines.length ∧
    ∀ hj : (parse_lines lines i).2 < lines.length,
      (stripCL (lines.get ⟨(parse_lines lines i).2, hj⟩)).isEmpty = false ∧
      indentOf (lines.get ⟨(parse_lines lines i).2, hj⟩) < refIndent lines i := by
  have hsome := parseLoop_isSome (lines.length + 1) lines (refIndent lines i) Fields.nil i
    hi (by omega)
  obtain ⟨⟨r, j⟩, hrj⟩ := Option.isSome_iff_exists.mp hsome
  have hpl : parse_lines lines i = (r, j) := by
    rw [parse_lines, hrj]
    rfl
  have hle := parseLoop_le _ lines _ Fields.nil i r j hrj
  have hstop := parseLoop_stop _ lines _ Fields.nil i r j hi hrj
  refine ⟨hsome, ?_, ?_, ?_, ?_⟩
  · rw [hpl]
    exact hle.1
  · intro hlt
    rw [hpl]
    exact parseLoop_strict _ lines Fields.nil i r j hlt hrj
  · rw [hpl]
    exact hstop.1
  · rw [hpl]
    exact hstop.2

/-- C7 witness: the parser consumes a concrete one-line input entirely. -/
theorem claim_C7_witness :
    0 ≤ ([cl "a: 1"] : List (List Char)).length ∧
    (parse_lines [cl "a: 1"] 0).2 ≤ ([cl "a: 1"] : List (List Char)).length :=
  ⟨by decide, (claim_C7_termination [cl "a: 1"] 0 (by decide)).2.2.2.1⟩

/-- C8: the empty Dataset encodes to the empty text and the empty text
decodes to the empty Dataset; in general the result is the subsequence of
the per-chunk parses keeping exactly, in chunk order, those chunks whose
parse is a non-empty mapping. -/
theorem claim_C8_empty_and_chunks :
    dict_to_toon [] = [] ∧
    toon_to_dict [] = [] ∧
    (∀ t : List Char,
      List.Sublist (toon_to_dict t) ((splitOnCL SEP (stripCL t)).map parseChunk) ∧
      (∀ r ∈ toon_to_dict t, r ≠ Fields.nil) ∧
      (∀ c ∈ splitOnCL SEP (stripCL t), parseChunk c ≠ Fields.nil →
        parseChunk c ∈ toon_to_dict t)) := by
  refine ⟨rfl, by decide, ?_⟩
  intro t
  refine ⟨List.filter_sublist _, ?_, ?_⟩
  · intro r hr
    rw [toon_to_dict] at hr
    have hp := (List.mem_filter.mp hr).2
    cases r with
    | nil => simp [Fields.isEmpty] at hp
    | cons k v rest => simp
  · intro c hc hne
    rw [toon_to_dict]
    apply List.mem_filter.mpr
    refine ⟨List.mem_map_of_mem _ hc, ?_⟩
    cases hx : parseChunk c with
    | nil => exact absurd hx hne
    | cons k v rest => rfl

/-- C8 witness: a concrete non-empty chunk parse is kept in the result. -/
theorem claim_C8_witness :
    parseChunk (cl "a: 1") ≠ Fields.nil ∧
    parseChunk (cl "a: 1") ∈ toon_to_dict (cl "a: 1") :=
  ⟨by decide, (claim_C8_empty_and_chunks.2.2 (cl "a: 1")).2.2 (cl "a: 1") (by decide)
    (by decide)⟩

/-- C9: booleans are case-insensitive on decode and lowercase on encode:
every token whose lowercasing is true or false decodes to the matching
Boolean, and a Boolean always renders as the lowercase literal. -/
theorem claim_C9_boolean_casing :
    (∀ t : List Char, lowerCL t = cl "true" → parse_value t = Value.bool true) ∧
    (∀ t : List Char, lowerCL t = cl "false" → parse_value t = Value.bool false) ∧
    (∀ (b : Bool) (ind : Nat),
      format_value (Value.bool b) ind = if b then cl "true" else cl "false") ∧
    parse_value (cl "TRUE") = Value.bool true ∧
    parse_value (cl "FaLsE") = Value.bool false :=
  ⟨parse_value_lower_true, parse_value_lower_false, fun _ _ => rfl, by decide, by decide⟩

/-- C9 witness: a concrete mixed-casing boolean token. -/
theorem claim_C9_witness : parse_value (cl "TrUe") = Value.bool true :=
  claim_C9_boolean_casing.1 (cl "TrUe") (by decide)

/-- C10: on a key-only line the recursive call takes the indent of the
following line as its reference indent, so when that line sits at the same
indent it and all later lines at that indent are parsed as fields of the
nested Object rather than as siblings; consequently a record with an empty
Object field followed by further fields does not round trip. -/
theorem claim_C10_nested_swallow :
    (∀ (fuel : Nat) (lines : List (List Char)) (cur : Nat) (acc : Fields) (i : Nat)
      (h : i < lines.length),
      (stripCL lines[i]).isEmpty = false →
      indentOf lines[i] = cur →
      splitFirstCL COLSP (stripCL lines[i]) = none →
      (cl ":").isSuffixOf (stripCL lines[i]) = true →
      parseLoop (fuel + 1) lines cur acc i =
        match parseLoop fuel lines (refIndent lines (i + 1)) Fields.nil (i + 1) with
        | none => none
        | some (nested, nexti) =>
          parseLoop fuel lines cur
            (acc.insert ((stripCL lines[i]).dropLast) (Value.obj nested)) nexti) ∧
    toon_to_dict (cl "a:\nb: 1\nc: 2") =
      [Fields.cons (cl "a") (Value.obj (Fields.cons (cl "b") (Value.int 1)
        (Fields.cons (cl "c") (Value.int 2) Fields.nil))) Fields.nil] ∧
    toon_to_dict (dict_to_toon [Fields.cons (cl "a") (Value.obj Fields.nil)
      (Fields.cons (cl "b") (Value.str (cl "x")) Fields.nil)]) =
      [Fields.cons (cl "a")
        (Value.obj (Fields.cons (cl "b") (Value.str (cl "x")) Fields.nil)) Fields.nil] ∧
    toon_to_dict (dict_to_toon [Fields.cons (cl "a") (Value.obj Fields.nil)
      (Fields.cons (cl "b") (Value.str (cl "x")) Fields.nil)]) ≠
      [Fields.cons (cl "a") (Value.obj Fields.nil)
        (Fields.cons (cl "b") (Value.str (cl "x")) Fields.nil)] := by
  refine ⟨?_, by decide, by decide, by decide⟩
  intro fuel lines cur acc i h hblank hind hsp hsuf
  rw [parseLoop_succ fuel lines cur acc i h]
  rw [if_neg (by simp [hblank]), if_neg (by omega), if_neg (by omega)]
  simp only [hsp]
  rw [if_pos hsuf]

/-- C10 witness: the nested-branch shape at a concrete key-only line. -/
theorem claim_C10_witness :
    parseLoop 3 [cl "a:", cl "b: 1"] 0 Fields.nil 0 =
      match parseLoop 2 [cl "a:", cl "b: 1"] (refIndent [cl "a:", cl "b: 1"] 1)
        Fields.nil 1 with
      | none => none
      | some (nested, nexti) =>
        parseLoop 2 [cl "a:", cl "b: 1"] 0
          (Fields.nil.insert ((stripCL (cl "a:")).dropLast) (Value.obj nested)) nexti :=
  claim_C10_nested_swallow.1 2 [cl "a:", cl "b: 1"] 0 Fields.nil 0 (by decide) (by decide)
    (by decide) (by decide) (by decide)
